import Mathlib

/-!
Shallow embedding of the TermiPaint core (src/canvas.rs and src/tools.rs):
the character-grid canvas, the coalescing operation builder with its
undo/redo history, and the pure rasterization algorithms.  Machine
integers are modelled as Nat (u16/usize values, always in range for the
operations embedded here) and Int (i32/i64 coordinates and error terms).
-/

set_option maxHeartbeats 1000000

/-- Closed color enum from canvas.rs (PaintColor). -/
inductive PaintColor where
  | default
  | black
  | red
  | green
  | yellow
  | blue
  | magenta
  | cyan
  | white
deriving DecidableEq, Repr

/-- One grid cell: character, foreground color, optional background color. -/
structure PaintCell where
  ch : Char
  fg : PaintColor
  bg : Option PaintColor
deriving DecidableEq, Repr

/-- PaintCell::blank : the cell with a space, default foreground, no background. -/
def PaintCell.blank : PaintCell := ⟨' ', PaintColor.default, none⟩

/-- Canvas from canvas.rs: width, height and a row-major flat cell buffer.
The Rust struct maintains cells.len() == width*height at all times; the
invariant is carried as a proof field. -/
structure Canvas where
  width : Nat
  height : Nat
  cells : List PaintCell
  hsz : cells.length = width * height

instance : DecidableEq Canvas := fun a b =>
  decidable_of_iff (a.width = b.width ∧ a.height = b.height ∧ a.cells = b.cells)
    (by cases a; cases b; simp)

/-- Canvas::new — dimensions clamped to at least 1, buffer all blank. -/
def Canvas.new (width height : Nat) : Canvas :=
  { width := max width 1
    height := max height 1
    cells := List.replicate (max width 1 * max height 1) PaintCell.blank
    hsz := List.length_replicate _ _ }

/-- Canvas::in_bounds_i32 for signed coordinates. -/
def Canvas.in_bounds_i32 (c : Canvas) (x y : Int) : Prop :=
  0 ≤ x ∧ 0 ≤ y ∧ x < (c.width : Int) ∧ y < (c.height : Int)

instance (c : Canvas) (x y : Int) : Decidable (c.in_bounds_i32 x y) := by
  unfold Canvas.in_bounds_i32; infer_instance

/-- Canvas::index — row-major index. -/
def Canvas.index (c : Canvas) (x y : Nat) : Nat :=
  y * c.width + x

/-- Canvas::get — blank when out of range, otherwise the stored cell. -/
def Canvas.get (c : Canvas) (x y : Nat) : PaintCell :=
  if c.width ≤ x ∨ c.height ≤ y then PaintCell.blank
  else c.cells.getD (c.index x y) PaintCell.blank

/-- Canvas::get_i32 — none when out of range. -/
def Canvas.get_i32 (c : Canvas) (x y : Int) : Option PaintCell :=
  if c.in_bounds_i32 x y then some (c.get x.toNat y.toNat) else none

/-- Canvas::set — silently ignored when out of range. -/
def Canvas.set (c : Canvas) (x y : Nat) (cell : PaintCell) : Canvas :=
  if c.width ≤ x ∨ c.height ≤ y then c
  else
    { width := c.width
      height := c.height
      cells := c.cells.set (c.index x y) cell
      hsz := by rw [List.length_set]; exact c.hsz }

/-- Canvas::resize_preserve — clamp the new dimensions to at least 1; if
unchanged, return the canvas as is; otherwise allocate a blank buffer of the
new size and copy the overlapping top-left region cell by cell. -/
def Canvas.resize_preserve (c : Canvas) (new_width new_height : Nat) : Canvas :=
  let w := max new_width 1
  let h := max new_height 1
  if c.width = w ∧ c.height = h then c
  else
    { width := w
      height := h
      cells := (List.range (w * h)).map (fun i =>
        let x := i % w
        let y := i / w
        if x < min c.width w ∧ y < min c.height h then
          c.cells.getD (c.index x y) PaintCell.blank
        else PaintCell.blank)
      hsz := by rw [List.length_map, List.length_range] }

/-- CellChange from canvas.rs: the net effect at one coordinate across a gesture. -/
structure CellChange where
  x : Nat
  y : Nat
  before : PaintCell
  after : PaintCell
deriving DecidableEq, Repr

/-- Operation from canvas.rs: an ordered list of cell changes. -/
structure Operation where
  changes : List CellChange
deriving DecidableEq, Repr

/-- Operation::is_empty. -/
def Operation.is_empty (op : Operation) : Bool :=
  op.changes.isEmpty

/-- Operation::apply_before — write every change's before value back to the canvas. -/
def Operation.apply_before (op : Operation) (c : Canvas) : Canvas :=
  op.changes.foldl (fun acc ch => acc.set ch.x ch.y ch.before) c

/-- Operation::apply_after — write every change's after value to the canvas. -/
def Operation.apply_after (op : Operation) (c : Canvas) : Canvas :=
  op.changes.foldl (fun acc ch => acc.set ch.x ch.y ch.after) c

/-- OperationBuilder from canvas.rs.  The Rust field is a
HashMap<(u16,u16), CellChange>; it is modelled as an association list keyed
by the coordinate, holding at most one entry per key. -/
structure OperationBuilder where
  changes : List ((Nat × Nat) × CellChange)
deriving DecidableEq, Repr

/-- OperationBuilder::new. -/
def OperationBuilder.new : OperationBuilder := ⟨[]⟩

/-- OperationBuilder::apply — the change-tracking write.  Out-of-bounds
coordinates and writes equal to the current grid value do nothing; otherwise
the diff entry for the coordinate is updated (keeping its original before)
or inserted, and the cell is written to the canvas.  Returns the updated
builder and canvas (the Rust method mutates both in place). -/
def OperationBuilder.apply (b : OperationBuilder) (c : Canvas) (x y : Int)
    (new_cell : PaintCell) : OperationBuilder × Canvas :=
  if ¬ c.in_bounds_i32 x y then (b, c)
  else
    let ux := x.toNat
    let uy := y.toNat
    let before := c.get ux uy
    if before = new_cell then (b, c)
    else
      let key := (ux, uy)
      let b' : OperationBuilder :=
        if (b.changes.find? (fun kc => kc.1 == key)).isSome then
          ⟨b.changes.map (fun kc =>
            if kc.1 == key then (kc.1, { kc.2 with after := new_cell }) else kc)⟩
        else
          ⟨(key, ⟨ux, uy, before, new_cell⟩) :: b.changes⟩
      (b', c.set ux uy new_cell)

/-- Comparison used by into_operation's sort_by_key: key (y, x), lexicographic. -/
def cellChangeLE (a b : CellChange) : Bool :=
  a.y < b.y ∨ (a.y = b.y ∧ a.x ≤ b.x)

/-- Insertion step of the stable sort used to model Vec::sort_by_key. -/
def insertSorted (a : CellChange) : List CellChange → List CellChange
  | [] => [a]
  | b :: t => if cellChangeLE a b then a :: b :: t else b :: insertSorted a t

/-- Stable insertion sort by (y, x), modelling Vec::sort_by_key.  The keys of
the recorded changes are distinct, so any correct sort produces this result. -/
def sortChanges : List CellChange → List CellChange
  | [] => []
  | a :: t => insertSorted a (sortChanges t)

/-- OperationBuilder::into_operation — collect the recorded changes and sort
them by (y, x).  The HashMap's value iteration order is unspecified; the sort
makes the result canonical, so the association-list order is irrelevant. -/
def OperationBuilder.into_operation (b : OperationBuilder) : Operation :=
  ⟨sortChanges (b.changes.map Prod.snd)⟩

/-- History from canvas.rs: bounded undo deque, redo stack, capacity.
Both stacks are lists whose back (push/pop end) is the list's end. -/
structure History where
  undo_stack : List Operation
  redo_stack : List Operation
  capacity : Nat
deriving DecidableEq, Repr

/-- History::new. -/
def History.new (capacity : Nat) : History :=
  ⟨[], [], capacity⟩

/-- Eviction loop of History::push: while the stack is longer than the
capacity, drop the front (oldest) entry. -/
def evictFront (cap : Nat) : List Operation → List Operation
  | [] => []
  | a :: t => if cap < t.length + 1 then evictFront cap t else a :: t

/-- History::push — ignore empty operations; otherwise append to the undo
stack, clear the redo stack, and evict oldest entries beyond capacity. -/
def History.push (h : History) (op : Operation) : History :=
  if op.is_empty then h
  else
    { undo_stack := evictFront h.capacity (h.undo_stack ++ [op])
      redo_stack := []
      capacity := h.capacity }

/-- History::undo — pop the most recent operation, replay its before values
onto the canvas, move it to the redo stack; false when there is nothing to undo. -/
def History.undo (h : History) (c : Canvas) : History × Canvas × Bool :=
  match h.undo_stack.getLast? with
  | none => (h, c, false)
  | some op =>
      ({ undo_stack := h.undo_stack.dropLast
         redo_stack := h.redo_stack ++ [op]
         capacity := h.capacity }, op.apply_before c, true)

/-- History::redo — pop the most recent redo operation, replay its after
values onto the canvas, move it back to the undo stack. -/
def History.redo (h : History) (c : Canvas) : History × Canvas × Bool :=
  match h.redo_stack.getLast? with
  | none => (h, c, false)
  | some op =>
      ({ undo_stack := h.undo_stack ++ [op]
         redo_stack := h.redo_stack.dropLast
         capacity := h.capacity }, op.apply_after c, true)

/-- History::clear. -/
def History.clear (h : History) : History :=
  ⟨[], [], h.capacity⟩

/-- Fold a list of (x, y, cell) calls through OperationBuilder::apply,
threading the builder and the canvas: one user gesture. -/
def applyCalls (b : OperationBuilder) (c : Canvas)
    (calls : List (Int × Int × PaintCell)) : OperationBuilder × Canvas :=
  calls.foldl (fun bc call => OperationBuilder.apply bc.1 bc.2 call.1 call.2.1 call.2.2) (b, c)

/-- Calls a caller can make on a History (with its canvas), for stating the
capacity invariant over arbitrary call sequences. -/
inductive HistCall where
  | push (op : Operation)
  | undo
  | redo
  | clear

/-- Step function running one HistCall on a history/canvas pair. -/
def histStep (hc : History × Canvas) (call : HistCall) : History × Canvas :=
  match call with
  | HistCall.push op => (hc.1.push op, hc.2)
  | HistCall.undo => let r := hc.1.undo hc.2; (r.1, r.2.1)
  | HistCall.redo => let r := hc.1.redo hc.2; (r.1, r.2.1)
  | HistCall.clear => (hc.1.clear, hc.2)

/-- Point from tools.rs: signed 2D integer coordinate. -/
structure Point where
  x : Int
  y : Int
deriving DecidableEq, Repr

/-- Loop of bresenham_line, with the constants (end point, step signs, deltas)
fixed and the mutable state (x0, y0, err) explicit.  The Rust loop always
terminates; here the recursion is driven by a fuel argument that the
correctness lemma shows is never exhausted when it starts at
natAbs dx + natAbs dy + 1. -/
def bresenhamGo (x1 y1 sx sy dx dy : Int) : Nat → Int → Int → Int → List Point
  | 0, _, _, _ => []
  | fuel + 1, x0, y0, err =>
      if x0 = x1 ∧ y0 = y1 then [⟨x0, y0⟩]
      else
        ⟨x0, y0⟩ ::
          bresenhamGo x1 y1 sx sy dx dy fuel
            (if dy ≤ 2 * err ∧ ¬ x0 = x1 then x0 + sx else x0)
            (if 2 * err ≤ dx ∧ ¬ y0 = y1 then y0 + sy else y0)
            ((if dy ≤ 2 * err ∧ ¬ x0 = x1 then err + dy else err) +
              (if 2 * err ≤ dx ∧ ¬ y0 = y1 then dx else 0))

/-- bresenham_line from tools.rs: standard integer Bresenham over all octants. -/
def bresenham_line (ps pe : Point) : List Point :=
  let dx : Int := ((pe.x - ps.x).natAbs : Int)
  let sx : Int := if ps.x < pe.x then 1 else -1
  let dy : Int := -((pe.y - ps.y).natAbs : Int)
  let sy : Int := if ps.y < pe.y then 1 else -1
  bresenhamGo pe.x pe.y sx sy dx dy
    ((pe.x - ps.x).natAbs + (pe.y - ps.y).natAbs + 1) ps.x ps.y (dx + dy)

/-- plot_ellipse_points from tools.rs: push the four quadrant mirrors. -/
def plot_ellipse_points (points : List Point) (cx cy x y : Int) : List Point :=
  points ++ [⟨cx + x, cy + y⟩, ⟨cx - x, cy + y⟩, ⟨cx + x, cy - y⟩, ⟨cx - x, cy - y⟩]

/-- Region-1 loop of ellipse_points (while px < py).  Returns the plotted
points together with the final x, y, px, py state, which region 2 continues
from.  The positivity facts about the doubled squared radii make the loop
terminate: px strictly grows while py never grows. -/
def ellipseRegion1 (rx2 ry2 two_rx2 two_ry2 cx cy : Int)
    (hry : 0 < two_ry2) (hrx : 0 ≤ two_rx2)
    (x y px py p : Int) (acc : List Point) : List Point × Int × Int × Int × Int :=
  if px < py then
    let acc' := plot_ellipse_points acc cx cy x y
    let x' := x + 1
    let px' := px + two_ry2
    if p < 0 then
      ellipseRegion1 rx2 ry2 two_rx2 two_ry2 cx cy hry hrx x' y px' py
        (p + ry2 + px') acc'
    else
      ellipseRegion1 rx2 ry2 two_rx2 two_ry2 cx cy hry hrx x' (y - 1) px'
        (py - two_rx2) (p + ry2 + px' - (py - two_rx2)) acc'
  else (acc, x, y, px, py)
termination_by (py - px).toNat
decreasing_by
  all_goals omega

/-- Region-2 loop of ellipse_points (while 0 <= y): y strictly decreases. -/
def ellipseRegion2 (rx2 ry2 two_rx2 two_ry2 cx cy : Int)
    (x y px py p2 : Int) (acc : List Point) : List Point :=
  if 0 ≤ y then
    let acc' := plot_ellipse_points acc cx cy x y
    let y' := y - 1
    let py' := py - two_rx2
    if 0 < p2 then
      ellipseRegion2 rx2 ry2 two_rx2 two_ry2 cx cy x y' px py' (p2 + rx2 - py') acc'
    else
      ellipseRegion2 rx2 ry2 two_rx2 two_ry2 cx cy (x + 1) y' (px + two_ry2) py'
        (p2 + rx2 - py' + (px + two_ry2)) acc'
  else acc
termination_by (y + 1).toNat
decreasing_by
  all_goals omega

/-- Inclusive integer range a..=b as a list, empty when b < a. -/
def intRangeIncl (a b : Int) : List Int :=
  (List.range (b + 1 - a).toNat).map (fun i => a + (i : Int))

/-- Deduplication loop of dedup_points, keeping first occurrences.  The Rust
HashSet of seen coordinates is modelled as a list of seen coordinate pairs. -/
def dedupGo (seen : List (Int × Int)) : List Point → List Point
  | [] => []
  | p :: rest =>
      if (p.x, p.y) ∈ seen then dedupGo seen rest
      else p :: dedupGo ((p.x, p.y) :: seen) rest

/-- dedup_points from tools.rs. -/
def dedup_points (points : List Point) : List Point :=
  dedupGo [] points

/-- ellipse_points from tools.rs: normalize the corner points into a bounding
box, take the radii as half the extents; handle the degenerate radii by
returning the center point or an axis-aligned segment; otherwise run the
midpoint-ellipse algorithm in two regions and deduplicate. -/
def ellipse_points (ps pe : Point) : List Point :=
  let min_x := min ps.x pe.x
  let max_x := max ps.x pe.x
  let min_y := min ps.y pe.y
  let max_y := max ps.y pe.y
  let rx : Int := ((max_x - min_x) / 2).natAbs
  let ry : Int := ((max_y - min_y) / 2).natAbs
  let cx := min_x + rx
  let cy := min_y + ry
  if rx = 0 ∧ ry = 0 then [⟨cx, cy⟩]
  else if rx = 0 then (intRangeIncl min_y max_y).map (fun y => ⟨cx, y⟩)
  else if hry : ry = 0 then (intRangeIncl min_x max_x).map (fun x => ⟨x, cy⟩)
  else
    let rx2 := rx * rx
    let ry2 := ry * ry
    let two_rx2 := 2 * rx2
    let two_ry2 := 2 * ry2
    let p := ry2 - rx2 * ry + rx2 / 4
    let r1 := ellipseRegion1 rx2 ry2 two_rx2 two_ry2 cx cy
      (by positivity)
      (by positivity)
      0 ry 0 (two_rx2 * ry) p []
    let x := r1.2.1
    let y := r1.2.2.1
    let px := r1.2.2.2.1
    let py := r1.2.2.2.2
    let p2 := ry2 * (x * x + x) + ry2 / 4 + rx2 * (y - 1) * (y - 1) - rx2 * ry2
    dedup_points (ellipseRegion2 rx2 ry2 two_rx2 two_ry2 cx cy x y px py p2 r1.1)

/-- Neighbor candidates pushed by the BFS for a dequeued point, in push
order: right, left, down, up. -/
def neighborList (p : Point) : List Point :=
  [⟨p.x + 1, p.y⟩, ⟨p.x - 1, p.y⟩, ⟨p.x, p.y + 1⟩, ⟨p.x, p.y - 1⟩]

/-- Number of unvisited (false) entries of the visited mask; the BFS
termination measure counts these. -/
def countFalse (l : List Bool) : Nat := l.countP (fun b => !b)

/-- BFS loop of flood_fill_points.  The state is the pending queue (front at
the head, pushes at the back), the visited mask (row-major, as in the Rust
Vec<bool>) and the accumulated output.  The mask's length always equals
width*height; the proof parameter carries that fact for termination. -/
def floodLoop (c : Canvas) (target : PaintCell) :
    (queue : List Point) → (visited : List Bool) →
    visited.length = c.width * c.height → (out : List Point) → List Point
  | [], _, _, out => out
  | p :: rest, visited, hv, out =>
    if hin : ¬ c.in_bounds_i32 p.x p.y then floodLoop c target rest visited hv out
    else
      let idx := p.y.toNat * c.width + p.x.toNat
      if visited.getD idx false then floodLoop c target rest visited hv out
      else
        have hv' : (visited.set idx true).length = c.width * c.height := by
          rw [List.length_set]; exact hv
        if ¬ (c.get p.x.toNat p.y.toNat = target) then
          floodLoop c target rest (visited.set idx true) hv' out
        else
          floodLoop c target (rest ++ neighborList p)
            (visited.set idx true) hv' (out ++ [p])
termination_by queue visited _ _ => 5 * countFalse visited + queue.length
decreasing_by
  · simp only [List.length_cons]
    omega
  · simp only [List.length_cons]
    omega
  · have key : ∀ (l : List Bool) (i : Nat), countFalse (l.set i true) ≤ countFalse l := by
      intro l
      induction l with
      | nil => intro i; simp
      | cons a t ih =>
        intro i
        cases i with
        | zero => cases a <;> simp [countFalse, List.countP_cons]
        | succ n =>
          simp only [List.set, countFalse, List.countP_cons]
          have := ih n
          simp only [countFalse] at this
          omega
    simp only [List.length_cons]
    have := key visited (p.y.toNat * c.width + p.x.toNat)
    omega
  · have key : ∀ (l : List Bool) (i : Nat), i < l.length → l.getD i false = false →
        countFalse (l.set i true) < countFalse l := by
      intro l
      induction l with
      | nil => intro i h1; simp at h1
      | cons a t ih =>
        intro i h1 h2
        cases i with
        | zero =>
          simp [List.getD_cons_zero] at h2
          subst h2
          simp [countFalse, List.countP_cons]
        | succ n =>
          simp only [List.set, countFalse, List.countP_cons]
          simp only [List.length_cons, Nat.add_lt_add_iff_right] at h1
          simp only [List.getD_cons_succ] at h2
          have := ih n h1 h2
          simp only [countFalse] at this
          omega
    simp only [neighborList, List.length_cons, List.length_append, List.length_nil]
    obtain ⟨hx0, hy0, hxw, hyh⟩ := not_not.mp hin
    have hxlt : p.x.toNat < c.width := by omega
    have hylt : p.y.toNat < c.height := by omega
    have hidx : p.y.toNat * c.width + p.x.toNat < c.width * c.height := by
      have h1 : p.y.toNat * c.width + p.x.toNat < (p.y.toNat + 1) * c.width := by
        have : (p.y.toNat + 1) * c.width = p.y.toNat * c.width + c.width := by ring
        omega
      have h2 : (p.y.toNat + 1) * c.width ≤ c.height * c.width :=
        Nat.mul_le_mul_right _ hylt
      have h3 : c.height * c.width = c.width * c.height := Nat.mul_comm _ _
      omega
    rename_i hvis _
    have hfalse : visited.getD (p.y.toNat * c.width + p.x.toNat) false = false := by
      simpa using hvis
    have := key visited (p.y.toNat * c.width + p.x.toNat) (hv ▸ hidx) hfalse
    omega

/-- flood_fill_points from tools.rs: BFS over the 4-connected region of
target-valued cells; empty when target equals replacement or the seed is out
of bounds.  The canvas is read only — the function just returns coordinates. -/
def flood_fill_points (c : Canvas) (start : Point) (target replacement : PaintCell) :
    List Point :=
  if target = replacement ∨ ¬ c.in_bounds_i32 start.x start.y then []
  else
    floodLoop c target [start] (List.replicate (c.width * c.height) false)
      (List.length_replicate _ _) []

/-- One BFS acceptance step: q is one of the four neighbor candidates of p,
in bounds, and holds the target cell. -/
def floodStep (c : Canvas) (target : PaintCell) (p q : Point) : Prop :=
  q ∈ neighborList p ∧ c.in_bounds_i32 q.x q.y ∧ c.get q.x.toNat q.y.toNat = target

/-- Membership in the 4-connected component of target-valued cells containing s. -/
def FloodReach (c : Canvas) (target : PaintCell) (s p : Point) : Prop :=
  Relation.ReflTransGen (floodStep c target) s p

/-- Loop invariant of the flood-fill BFS: the seed is an in-bounds target
cell; the output is duplicate-free and contains exactly the visited target
cells, all reachable from the seed; every queued point is the seed or a
neighbor candidate of an output point; every neighbor candidate of an output
point is queued, out of bounds, or visited; and the seed is output or queued. -/
def FloodInv (c : Canvas) (target : PaintCell) (s : Point)
    (queue : List Point) (visited : List Bool) (out : List Point) : Prop :=
  c.in_bounds_i32 s.x s.y ∧ c.get s.x.toNat s.y.toNat = target ∧
  out.Nodup ∧
  (∀ p ∈ out, c.in_bounds_i32 p.x p.y ∧ c.get p.x.toNat p.y.toNat = target ∧
     visited.getD (p.y.toNat * c.width + p.x.toNat) false = true ∧
     FloodReach c target s p) ∧
  (∀ p : Point, c.in_bounds_i32 p.x p.y → c.get p.x.toNat p.y.toNat = target →
     visited.getD (p.y.toNat * c.width + p.x.toNat) false = true → p ∈ out) ∧
  (∀ q ∈ queue, q = s ∨ ∃ p ∈ out, q ∈ neighborList p) ∧
  (∀ p ∈ out, ∀ q ∈ neighborList p, q ∈ queue ∨ ¬ c.in_bounds_i32 q.x q.y ∨
     visited.getD (q.y.toNat * c.width + q.x.toNat) false = true) ∧
  (s ∈ out ∨ s ∈ queue)

/-- Step relation produced by one Bresenham iteration: each coordinate stays
or advances one unit in its fixed sign direction, and the point changes. -/
def goStep (sx sy : Int) (p q : Point) : Prop :=
  (q.x = p.x ∨ q.x = p.x + sx) ∧ (q.y = p.y ∨ q.y = p.y + sy) ∧ q ≠ p

/-- Invariant tying an OperationBuilder to the pre-gesture canvas c0 and the
current canvas c: dimensions unchanged; at most one entry per coordinate;
every entry is in bounds, carries its coordinate, its before is the
pre-gesture value and its after the current value; and untouched in-bounds
cells still hold their pre-gesture value. -/
def BuilderInv (c0 c : Canvas) (b : OperationBuilder) : Prop :=
  c.width = c0.width ∧ c.height = c0.height ∧
  (b.changes.map Prod.fst).Nodup ∧
  (∀ kc ∈ b.changes, kc.2.x = kc.1.1 ∧ kc.2.y = kc.1.2 ∧
     kc.1.1 < c0.width ∧ kc.1.2 < c0.height ∧
     kc.2.before = c0.get kc.1.1 kc.1.2 ∧ kc.2.after = c.get kc.1.1 kc.1.2) ∧
  (∀ x y, x < c0.width → y < c0.height → (x, y) ∉ b.changes.map Prod.fst →
     c.get x y = c0.get x y)

/-! Basic facts about the Canvas accessors. -/

theorem canvas_index_lt (c : Canvas) {x y : Nat} (hx : x < c.width) (hy : y < c.height) :
    y * c.width + x < c.cells.length := by
  rw [c.hsz]
  have h1 : (y + 1) * c.width = y * c.width + c.width := by ring
  have h2 : (y + 1) * c.width ≤ c.height * c.width := Nat.mul_le_mul_right _ hy
  have h3 : c.height * c.width = c.width * c.height := Nat.mul_comm _ _
  omega

theorem canvas_index_inj {w x x' y y' : Nat} (hx : x < w) (hx' : x' < w)
    (h : y * w + x = y' * w + x') : x = x' ∧ y = y' := by
  have e1 : y * w + x = w * y + x := by ring
  have e2 : y' * w + x' = w * y' + x' := by ring
  have hm : (y * w + x) % w = x := by
    rw [e1, Nat.mul_add_mod]
    exact Nat.mod_eq_of_lt hx
  have hm' : (y' * w + x') % w = x' := by
    rw [e2, Nat.mul_add_mod]
    exact Nat.mod_eq_of_lt hx'
  have hxx : x = x' := by rw [← hm, ← hm', h]
  refine ⟨hxx, ?_⟩
  have hw : 0 < w := by omega
  have : y * w = y' * w := by omega
  exact Nat.eq_of_mul_eq_mul_right hw this

theorem canvas_index_decode {w x y : Nat} (hx : x < w) :
    (y * w + x) % w = x ∧ (y * w + x) / w = y := by
  have e1 : y * w + x = w * y + x := by ring
  have hw : 0 < w := by omega
  constructor
  · rw [e1, Nat.mul_add_mod]
    exact Nat.mod_eq_of_lt hx
  · rw [e1, Nat.mul_add_div hw]
    simp [Nat.div_eq_of_lt hx]

theorem canvas_get_oob (c : Canvas) {x y : Nat} (h : c.width ≤ x ∨ c.height ≤ y) :
    c.get x y = PaintCell.blank := by
  unfold Canvas.get
  rw [if_pos h]

theorem canvas_get_in (c : Canvas) {x y : Nat} (hx : x < c.width) (hy : y < c.height) :
    c.get x y = c.cells.getD (y * c.width + x) PaintCell.blank := by
  unfold Canvas.get
  rw [if_neg (by omega)]
  rfl

theorem canvas_set_width (c : Canvas) (x y : Nat) (cell : PaintCell) :
    (c.set x y cell).width = c.width := by
  unfold Canvas.set
  split <;> rfl

theorem canvas_set_height (c : Canvas) (x y : Nat) (cell : PaintCell) :
    (c.set x y cell).height = c.height := by
  unfold Canvas.set
  split <;> rfl

theorem canvas_set_cells_in (c : Canvas) {x y : Nat} (cell : PaintCell)
    (hx : x < c.width) (hy : y < c.height) :
    (c.set x y cell).cells = c.cells.set (y * c.width + x) cell := by
  unfold Canvas.set
  rw [if_neg (by omega)]
  rfl

theorem canvas_get_set_same (c : Canvas) {x y : Nat} (cell : PaintCell)
    (hx : x < c.width) (hy : y < c.height) : (c.set x y cell).get x y = cell := by
  have hx' : x < (c.set x y cell).width := by rw [canvas_set_width]; exact hx
  have hy' : y < (c.set x y cell).height := by rw [canvas_set_height]; exact hy
  rw [canvas_get_in _ hx' hy', canvas_set_width, canvas_set_cells_in c cell hx hy]
  have hlen : y * c.width + x < (c.cells.set (y * c.width + x) cell).length := by
    rw [List.length_set]
    exact canvas_index_lt c hx hy
  rw [List.getD_eq_getElem _ _ hlen]
  exact List.getElem_set_self _

theorem canvas_get_set_ne (c : Canvas) {x y x' y' : Nat} (cell : PaintCell)
    (hne : (x', y') ≠ (x, y)) : (c.set x y cell).get x' y' = c.get x' y' := by
  by_cases hin : x < c.width ∧ y < c.height
  · obtain ⟨hx, hy⟩ := hin
    by_cases hb : x' < c.width ∧ y' < c.height
    · have hx' : x' < (c.set x y cell).width := by rw [canvas_set_width]; exact hb.1
      have hy' : y' < (c.set x y cell).height := by rw [canvas_set_height]; exact hb.2
      rw [canvas_get_in _ hx' hy', canvas_set_width, canvas_set_cells_in c cell hx hy,
        canvas_get_in c hb.1 hb.2]
      have hidx : y * c.width + x ≠ y' * c.width + x' := by
        intro h
        obtain ⟨h1, h2⟩ := canvas_index_inj hx hb.1 h
        exact hne (by simp [h1, h2])
      by_cases hlt : y' * c.width + x' < c.cells.length
      · rw [List.getD_eq_getElem _ _ (by rwa [List.length_set]),
          List.getD_eq_getElem _ _ hlt]
        exact List.getElem_set_ne hidx _
      · rw [List.getD_eq_getElem?_getD, List.getD_eq_getElem?_getD,
          List.getElem?_eq_none (show (c.cells.set (y * c.width + x) cell).length ≤ y' * c.width + x' by
            rw [List.length_set]; omega),
          List.getElem?_eq_none (show c.cells.length ≤ y' * c.width + x' by omega)]
    · have hoob : c.width ≤ x' ∨ c.height ≤ y' := by omega
      have hoob' : (c.set x y cell).width ≤ x' ∨ (c.set x y cell).height ≤ y' := by
        rw [canvas_set_width, canvas_set_height]; exact hoob
      rw [canvas_get_oob _ hoob', canvas_get_oob _ hoob]
  · have : c.width ≤ x ∨ c.height ≤ y := by omega
    unfold Canvas.set
    rw [if_pos this]

theorem canvas_eq_of_get {a b : Canvas} (hw : a.width = b.width) (hh : a.height = b.height)
    (hg : ∀ x y, x < a.width → y < a.height → a.get x y = b.get x y) : a = b := by
  obtain ⟨w, h, cells, hsz⟩ := a
  obtain ⟨w', h', cells', hsz'⟩ := b
  simp only at hw hh hg
  subst hw hh
  have hcells : cells = cells' := by
    apply List.ext_getElem (by rw [hsz, hsz'])
    intro n h1 h2
    rw [hsz] at h1
    have hw0 : 0 < w := by
      rcases Nat.eq_zero_or_pos w with h0 | h0
      · subst h0
        simp at h1
      · exact h0
    have hx : n % w < w := Nat.mod_lt _ hw0
    have hy : n / w < h := (Nat.div_lt_iff_lt_mul hw0).mpr (by rw [Nat.mul_comm]; exact h1)
    have hrec : n / w * w + n % w = n := by
      rw [Nat.mul_comm]
      exact Nat.div_add_mod n w
    have hval := hg (n % w) (n / w) hx hy
    rw [canvas_get_in _ hx hy, canvas_get_in _ hx hy] at hval
    have hval' : cells.getD (n / w * w + n % w) PaintCell.blank =
        cells'.getD (n / w * w + n % w) PaintCell.blank := hval
    rw [hrec] at hval'
    rw [List.getD_eq_getElem _ _ (show n < cells.length by omega),
      List.getD_eq_getElem _ _ (show n < cells'.length by omega)] at hval'
    exact hval'
  subst hcells
  rfl

theorem rowmajor_lt {w h x y : Nat} (hx : x < w) (hy : y < h) : y * w + x < w * h := by
  have h1 : (y + 1) * w = y * w + w := by ring
  have h2 : (y + 1) * w ≤ h * w := Nat.mul_le_mul_right _ hy
  have h3 : h * w = w * h := Nat.mul_comm _ _
  omega

theorem resize_get (c : Canvas) (nw nh x y : Nat) :
    (c.resize_preserve nw nh).get x y =
      if x < min c.width (max nw 1) ∧ y < min c.height (max nh 1) then c.get x y
      else PaintCell.blank := by
  simp only [Canvas.resize_preserve]
  split
  · rename_i hsame
    split
    · rfl
    · rename_i hov
      apply canvas_get_oob
      have h1 := hsame.1
      have h2 := hsame.2
      omega
  · rename_i hdiff
    by_cases hb : x < max nw 1 ∧ y < max nh 1
    · have hidx : y * max nw 1 + x < max nw 1 * max nh 1 := rowmajor_lt hb.1 hb.2
      simp only [Canvas.get, Canvas.index]
      rw [if_neg (by omega)]
      rw [List.getD_eq_getElem _ _ (by
        simp only [List.length_map, List.length_range]
        exact hidx)]
      rw [List.getElem_map, List.getElem_range]
      have hdec := canvas_index_decode (w := max nw 1) (y := y) hb.1
      rw [hdec.1, hdec.2]
      split
      · rename_i hov
        rw [if_neg (show ¬ (c.width ≤ x ∨ c.height ≤ y) by omega)]
      · rfl
    · simp only [Canvas.get]
      rw [if_pos (by omega), if_neg (by omega)]

theorem canvas_set_oob (c : Canvas) {x y : Nat} (cell : PaintCell)
    (h : c.width ≤ x ∨ c.height ≤ y) : c.set x y cell = c := by
  unfold Canvas.set
  rw [if_pos h]

theorem resize_width (c : Canvas) (nw nh : Nat) :
    (c.resize_preserve nw nh).width = max nw 1 := by
  simp only [Canvas.resize_preserve]
  split
  · rename_i hsame
    exact hsame.1
  · rfl

theorem resize_height (c : Canvas) (nw nh : Nat) :
    (c.resize_preserve nw nh).height = max nh 1 := by
  simp only [Canvas.resize_preserve]
  split
  · rename_i hsame
    exact hsame.2
  · rfl

/-- C5: Grid total-function guarantee at the bounds — for every coordinate
with x >= width or y >= height, Canvas::get returns the blank cell and
Canvas::set leaves the canvas completely unchanged; neither signals failure
(both are total functions). -/
theorem grid_total_at_bounds (c : Canvas) (x y : Nat) (cell : PaintCell)
    (h : c.width ≤ x ∨ c.height ≤ y) :
    c.get x y = PaintCell.blank ∧ c.set x y cell = c :=
  ⟨canvas_get_oob c h, canvas_set_oob c cell h⟩

/-- Witness: the out-of-range read/write guarantee evaluated on a concrete
2x2 canvas at column 5. -/
theorem grid_total_at_bounds_witness :
    ((Canvas.new 2 2).width ≤ 5 ∨ (Canvas.new 2 2).height ≤ 0) ∧
    ((Canvas.new 2 2).get 5 0 = PaintCell.blank ∧
     (Canvas.new 2 2).set 5 0 ⟨'X', PaintColor.red, none⟩ = Canvas.new 2 2) :=
  ⟨Or.inl (by decide),
   grid_total_at_bounds (Canvas.new 2 2) 5 0 ⟨'X', PaintColor.red, none⟩ (Or.inl (by decide))⟩

/-- C6: resize_preserve postcondition — the canvas takes the new dimensions
(clamped to at least 1); every cell with x < min(old_w, new_w) and
y < min(old_h, new_h) keeps its pre-resize value, and every other coordinate
reads blank. -/
theorem resize_preserve_contract (c : Canvas) (nw nh : Nat) :
    (c.resize_preserve nw nh).width = max nw 1 ∧
    (c.resize_preserve nw nh).height = max nh 1 ∧
    ∀ x y, (c.resize_preserve nw nh).get x y =
      if x < min c.width (max nw 1) ∧ y < min c.height (max nh 1) then c.get x y
      else PaintCell.blank :=
  ⟨resize_width c nw nh, resize_height c nw nh, fun x y => resize_get c nw nh x y⟩

/-! Replaying a list of cell changes over a canvas (apply_before / apply_after). -/

theorem foldSet_width (l : List CellChange) (f : CellChange → PaintCell) (c : Canvas) :
    (l.foldl (fun acc ch => acc.set ch.x ch.y (f ch)) c).width = c.width := by
  induction l generalizing c with
  | nil => rfl
  | cons e t ih => rw [List.foldl_cons, ih, canvas_set_width]

theorem foldSet_height (l : List CellChange) (f : CellChange → PaintCell) (c : Canvas) :
    (l.foldl (fun acc ch => acc.set ch.x ch.y (f ch)) c).height = c.height := by
  induction l generalizing c with
  | nil => rfl
  | cons e t ih => rw [List.foldl_cons, ih, canvas_set_height]

theorem foldSet_get_not_mem (l : List CellChange) (f : CellChange → PaintCell) (c : Canvas)
    {x y : Nat} (h : ∀ ch ∈ l, ¬ (ch.x = x ∧ ch.y = y)) :
    (l.foldl (fun acc ch => acc.set ch.x ch.y (f ch)) c).get x y = c.get x y := by
  induction l generalizing c with
  | nil => rfl
  | cons e t ih =>
    rw [List.foldl_cons, ih _ (fun ch hch => h ch (List.mem_cons_of_mem _ hch))]
    apply canvas_get_set_ne
    intro heq
    exact h e (List.mem_cons_self _ _) ⟨(Prod.mk.injEq _ _ _ _ ▸ heq).1.symm,
      (Prod.mk.injEq _ _ _ _ ▸ heq).2.symm⟩

theorem foldSet_get_mem (l : List CellChange) (f : CellChange → PaintCell) (c : Canvas)
    {x y : Nat} (ch : CellChange) (hnd : (l.map fun e => (e.x, e.y)).Nodup)
    (hch : ch ∈ l) (hx : ch.x = x) (hy : ch.y = y)
    (hxw : x < c.width) (hyh : y < c.height) :
    (l.foldl (fun acc ch => acc.set ch.x ch.y (f ch)) c).get x y = f ch := by
  induction l generalizing c with
  | nil => cases hch
  | cons e t ih =>
    rw [List.foldl_cons]
    rw [List.map_cons, List.nodup_cons] at hnd
    rcases List.mem_cons.mp hch with heq | hmem
    · subst heq
      have hnot : ∀ ch' ∈ t, ¬ (ch'.x = x ∧ ch'.y = y) := by
        intro ch' hch' hcontra
        apply hnd.1
        have : (ch'.x, ch'.y) ∈ t.map (fun e => (e.x, e.y)) := List.mem_map_of_mem _ hch'
        rw [hcontra.1, hcontra.2, ← hx, ← hy] at this
        exact this
      rw [foldSet_get_not_mem t f _ hnot]
      subst hx hy
      exact canvas_get_set_same c (f ch) hxw hyh
    · have hne : ch ≠ e := by
        intro heq
        apply hnd.1
        have : (ch.x, ch.y) ∈ t.map (fun e => (e.x, e.y)) := List.mem_map_of_mem _ hmem
        rw [heq] at this
        exact this
      apply ih _ hnd.2 hmem
      · rw [canvas_set_width]; exact hxw
      · rw [canvas_set_height]; exact hyh

/-! Case equations for OperationBuilder::apply and the gesture invariant. -/

theorem apply_oob (b : OperationBuilder) (c : Canvas) (x y : Int) (cell : PaintCell)
    (h : ¬ c.in_bounds_i32 x y) : b.apply c x y cell = (b, c) := by
  simp only [OperationBuilder.apply]
  rw [if_pos h]

theorem apply_noop (b : OperationBuilder) (c : Canvas) (x y : Int) (cell : PaintCell)
    (hbin : c.in_bounds_i32 x y) (heq : c.get x.toNat y.toNat = cell) :
    b.apply c x y cell = (b, c) := by
  simp only [OperationBuilder.apply]
  rw [if_neg (not_not.mpr hbin), if_pos heq]

theorem apply_update (b : OperationBuilder) (c : Canvas) (x y : Int) (cell : PaintCell)
    (hbin : c.in_bounds_i32 x y) (hne : ¬ c.get x.toNat y.toNat = cell)
    (hfound : (b.changes.find? (fun kc => kc.1 == (x.toNat, y.toNat))).isSome) :
    b.apply c x y cell =
      (⟨b.changes.map (fun kc =>
          if kc.1 == (x.toNat, y.toNat) then (kc.1, { kc.2 with after := cell }) else kc)⟩,
       c.set x.toNat y.toNat cell) := by
  simp only [OperationBuilder.apply]
  rw [if_neg (not_not.mpr hbin), if_neg hne, if_pos hfound]

theorem apply_insert (b : OperationBuilder) (c : Canvas) (x y : Int) (cell : PaintCell)
    (hbin : c.in_bounds_i32 x y) (hne : ¬ c.get x.toNat y.toNat = cell)
    (hnf : ¬ (b.changes.find? (fun kc => kc.1 == (x.toNat, y.toNat))).isSome) :
    b.apply c x y cell =
      (⟨((x.toNat, y.toNat),
          ⟨x.toNat, y.toNat, c.get x.toNat y.toNat, cell⟩) :: b.changes⟩,
       c.set x.toNat y.toNat cell) := by
  simp only [OperationBuilder.apply]
  rw [if_neg (not_not.mpr hbin), if_neg hne, if_neg hnf]

theorem find?_key_isSome (b : OperationBuilder) (k : Nat × Nat) :
    (b.changes.find? (fun kc => kc.1 == k)).isSome = true ↔
      k ∈ b.changes.map Prod.fst := by
  rw [List.find?_isSome]
  constructor
  · rintro ⟨kc, hmem, hkc⟩
    have hk : kc.1 = k := by simpa using hkc
    rw [← hk]
    exact List.mem_map_of_mem _ hmem
  · intro hk
    obtain ⟨kc, hmem, hfst⟩ := List.mem_map.mp hk
    exact ⟨kc, hmem, by simp [hfst]⟩

theorem builderInv_init (c0 : Canvas) : BuilderInv c0 c0 OperationBuilder.new := by
  unfold BuilderInv OperationBuilder.new
  simp

theorem in_bounds_set (c : Canvas) (x y : Nat) (cell : PaintCell) (a b : Int) :
    (c.set x y cell).in_bounds_i32 a b ↔ c.in_bounds_i32 a b := by
  unfold Canvas.in_bounds_i32
  rw [canvas_set_width, canvas_set_height]

theorem builderInv_apply (c0 c : Canvas) (b : OperationBuilder) (x y : Int)
    (cell : PaintCell) (hI : BuilderInv c0 c b) :
    BuilderInv c0 (b.apply c x y cell).2 (b.apply c x y cell).1 := by
  obtain ⟨hw, hh, hnd, hent, hun⟩ := hI
  by_cases hbin : c.in_bounds_i32 x y
  · by_cases hval : c.get x.toNat y.toNat = cell
    · rw [apply_noop b c x y cell hbin hval]
      exact ⟨hw, hh, hnd, hent, hun⟩
    · obtain ⟨hx0, hy0, hxlt, hylt⟩ := hbin
      have hxw : x.toNat < c.width := by omega
      have hyh : y.toNat < c.height := by omega
      have hxw0 : x.toNat < c0.width := by rw [← hw]; exact hxw
      have hyh0 : y.toNat < c0.height := by rw [← hh]; exact hyh
      by_cases hfound : (b.changes.find? (fun kc => kc.1 == (x.toNat, y.toNat))).isSome
      · rw [apply_update b c x y cell ⟨hx0, hy0, hxlt, hylt⟩ hval hfound]
        have hkeys : (b.changes.map (fun kc =>
            if kc.1 == (x.toNat, y.toNat) then (kc.1, { kc.2 with after := cell })
            else kc)).map Prod.fst = b.changes.map Prod.fst := by
          rw [List.map_map]
          apply List.map_congr_left
          intro kc _
          simp only [Function.comp_apply]
          split <;> rfl
        have hkeymem : (x.toNat, y.toNat) ∈ b.changes.map Prod.fst :=
          (find?_key_isSome b _).mp hfound
        refine ⟨by rw [canvas_set_width]; exact hw, by rw [canvas_set_height]; exact hh,
          by rw [hkeys]; exact hnd, ?_, ?_⟩
        · intro kc' hkc'
          obtain ⟨kc, hmem, hkceq⟩ := List.mem_map.mp hkc'
          obtain ⟨hcx, hcy, hbx, hby, hbef, haft⟩ := hent kc hmem
          by_cases hk : kc.1 = (x.toNat, y.toNat)
          · rw [← hkceq]
            rw [if_pos (by simp [hk])]
            refine ⟨hcx, hcy, hbx, hby, hbef, ?_⟩
            show cell = (c.set x.toNat y.toNat cell).get kc.1.1 kc.1.2
            rw [show kc.1.1 = x.toNat from by rw [hk],
              show kc.1.2 = y.toNat from by rw [hk]]
            exact (canvas_get_set_same c cell hxw hyh).symm
          · rw [← hkceq]
            rw [if_neg (by simp [hk])]
            refine ⟨hcx, hcy, hbx, hby, hbef, ?_⟩
            rw [haft]
            exact (canvas_get_set_ne c cell (by
              intro heq
              apply hk
              rw [← heq])).symm
        · intro a bb ha hb hnotmem
          rw [hkeys] at hnotmem
          have hne' : (a, bb) ≠ (x.toNat, y.toNat) := by
            intro heq
            rw [heq] at hnotmem
            exact hnotmem hkeymem
          rw [canvas_get_set_ne c cell hne']
          exact hun a bb ha hb hnotmem
      · rw [apply_insert b c x y cell ⟨hx0, hy0, hxlt, hylt⟩ hval hfound]
        have hkeynotmem : (x.toNat, y.toNat) ∉ b.changes.map Prod.fst := by
          intro hmem
          exact hfound ((find?_key_isSome b _).mpr hmem)
        refine ⟨by rw [canvas_set_width]; exact hw, by rw [canvas_set_height]; exact hh,
          ?_, ?_, ?_⟩
        · rw [List.map_cons, List.nodup_cons]
          exact ⟨hkeynotmem, hnd⟩
        · intro kc' hkc'
          rcases List.mem_cons.mp hkc' with heq | hmem
          · subst heq
            refine ⟨rfl, rfl, hxw0, hyh0, ?_, ?_⟩
            · show c.get x.toNat y.toNat = c0.get x.toNat y.toNat
              exact hun x.toNat y.toNat hxw0 hyh0 hkeynotmem
            · show cell = (c.set x.toNat y.toNat cell).get x.toNat y.toNat
              exact (canvas_get_set_same c cell hxw hyh).symm
          · obtain ⟨hcx, hcy, hbx, hby, hbef, haft⟩ := hent kc' hmem
            refine ⟨hcx, hcy, hbx, hby, hbef, ?_⟩
            rw [haft]
            refine (canvas_get_set_ne c cell ?_).symm
            intro heq
            apply hkeynotmem
            have : kc'.1 = (x.toNat, y.toNat) := by
              rw [← heq]
            rw [← this]
            exact List.mem_map_of_mem _ hmem
        · intro a bb ha hb hnotmem
          rw [List.map_cons, List.mem_cons] at hnotmem
          push_neg at hnotmem
          rw [canvas_get_set_ne c cell (by
            intro heq
            exact hnotmem.1 heq)]
          exact hun a bb ha hb hnotmem.2
  · rw [apply_oob b c x y cell hbin]
    exact ⟨hw, hh, hnd, hent, hun⟩

theorem builderInv_applyCalls (c0 : Canvas) (calls : List (Int × Int × PaintCell)) :
    ∀ (b : OperationBuilder) (c : Canvas), BuilderInv c0 c b →
      BuilderInv c0 (applyCalls b c calls).2 (applyCalls b c calls).1 := by
  induction calls with
  | nil => intro b c h; exact h
  | cons call t ih =>
    intro b c h
    have hstep := builderInv_apply c0 c b call.1 call.2.1 call.2.2 h
    have := ih (b.apply c call.1 call.2.1 call.2.2).1
      (b.apply c call.1 call.2.1 call.2.2).2 hstep
    simpa [applyCalls, List.foldl_cons] using this

theorem insertSorted_perm (a : CellChange) (l : List CellChange) :
    (insertSorted a l).Perm (a :: l) := by
  induction l with
  | nil => rfl
  | cons b t ih =>
    rw [insertSorted]
    split
    · rfl
    · exact (ih.cons b).trans (List.Perm.swap a b t)

theorem sortChanges_perm (l : List CellChange) : (sortChanges l).Perm l := by
  induction l with
  | nil => rfl
  | cons a t ih =>
    rw [sortChanges]
    exact (insertSorted_perm a (sortChanges t)).trans (ih.cons a)

theorem into_operation_apply (c0 c1 : Canvas) (b : OperationBuilder)
    (hI : BuilderInv c0 c1 b) :
    b.into_operation.apply_before c0 = c0 ∧ b.into_operation.apply_before c1 = c0 ∧
    b.into_operation.apply_after c0 = c1 ∧ b.into_operation.apply_after c1 = c1 := by
  obtain ⟨hw, hh, hnd, hent, hun⟩ := hI
  have hperm : (sortChanges (b.changes.map Prod.snd)).Perm
      (b.changes.map Prod.snd) := sortChanges_perm _
  set l := sortChanges (b.changes.map Prod.snd) with hldef
  have hkeys_eq : (b.changes.map Prod.snd).map (fun e => (e.x, e.y)) =
      b.changes.map Prod.fst := by
    rw [List.map_map]
    apply List.map_congr_left
    intro kc hmem
    obtain ⟨hx, hy, _⟩ := hent kc hmem
    simp only [Function.comp_apply]
    rw [hx, hy]
  have hmapperm : (l.map fun e => (e.x, e.y)).Perm (b.changes.map Prod.fst) := by
    rw [← hkeys_eq]
    exact hperm.map _
  have hlnd : (l.map fun e => (e.x, e.y)).Nodup :=
    hmapperm.nodup_iff.mpr (hkeys_eq ▸ hnd)
  have hprops : ∀ ch ∈ l, ch.x < c0.width ∧ ch.y < c0.height ∧
      ch.before = c0.get ch.x ch.y ∧ ch.after = c1.get ch.x ch.y := by
    intro ch hch
    have hm : ch ∈ b.changes.map Prod.snd := hperm.mem_iff.mp hch
    obtain ⟨kc, hmem, hkc⟩ := List.mem_map.mp hm
    obtain ⟨hx, hy, hbx, hby, hbef, haft⟩ := hent kc hmem
    subst hkc
    rw [hx, hy]
    exact ⟨hbx, hby, hbef, haft⟩
  have hkey_iff : ∀ x y : Nat, (x, y) ∈ l.map (fun e => (e.x, e.y)) ↔
      (x, y) ∈ b.changes.map Prod.fst := fun x y => hmapperm.mem_iff
  have hcase : ∀ (x y : Nat), (∃ ch ∈ l, ch.x = x ∧ ch.y = y) ∨
      (∀ ch ∈ l, ¬ (ch.x = x ∧ ch.y = y)) := by
    intro x y
    by_cases hk : ∃ ch ∈ l, ch.x = x ∧ ch.y = y
    · exact Or.inl hk
    · right
      intro ch hch hcontra
      exact hk ⟨ch, hch, hcontra⟩
  have hnotmem_key : ∀ (x y : Nat), (∀ ch ∈ l, ¬ (ch.x = x ∧ ch.y = y)) →
      (x, y) ∉ b.changes.map Prod.fst := by
    intro x y hno hmem
    obtain ⟨ch, hch, hcheq⟩ := List.mem_map.mp ((hkey_iff x y).mpr hmem)
    have h1 : ch.x = x := congrArg Prod.fst hcheq
    have h2 : ch.y = y := congrArg Prod.snd hcheq
    exact hno ch hch ⟨h1, h2⟩
  have hbeq : ∀ c' : Canvas, c'.width = c0.width → c'.height = c0.height →
      (∀ x y, x < c0.width → y < c0.height →
        (∀ ch ∈ l, ¬ (ch.x = x ∧ ch.y = y)) → c'.get x y = c0.get x y) →
      Operation.apply_before ⟨l⟩ c' = c0 := by
    intro c' hcw hch' hrest
    show List.foldl (fun acc ch => acc.set ch.x ch.y ch.before) c' l = c0
    have hfw := foldSet_width l (fun ch => ch.before) c'
    have hfh := foldSet_height l (fun ch => ch.before) c'
    apply canvas_eq_of_get (by rw [hfw, hcw]) (by rw [hfh, hch'])
    intro x y hx hy
    rw [hfw, hcw] at hx
    rw [hfh, hch'] at hy
    rcases hcase x y with ⟨ch, hch, hchx, hchy⟩ | hno
    · rw [foldSet_get_mem l (fun ch => ch.before) c' ch hlnd hch hchx hchy
        (by omega) (by omega)]
      obtain ⟨_, _, hbef, _⟩ := hprops ch hch
      rw [hbef, hchx, hchy]
    · rw [foldSet_get_not_mem l (fun ch => ch.before) c' hno]
      exact hrest x y hx hy hno
  have haeq : ∀ c' : Canvas, c'.width = c0.width → c'.height = c0.height →
      (∀ x y, x < c0.width → y < c0.height →
        (∀ ch ∈ l, ¬ (ch.x = x ∧ ch.y = y)) → c'.get x y = c1.get x y) →
      Operation.apply_after ⟨l⟩ c' = c1 := by
    intro c' hcw hch' hrest
    show List.foldl (fun acc ch => acc.set ch.x ch.y ch.after) c' l = c1
    have hfw := foldSet_width l (fun ch => ch.after) c'
    have hfh := foldSet_height l (fun ch => ch.after) c'
    apply canvas_eq_of_get (by rw [hfw, hcw, hw]) (by rw [hfh, hch', hh])
    intro x y hx hy
    rw [hfw, hcw] at hx
    rw [hfh, hch'] at hy
    rcases hcase x y with ⟨ch, hch, hchx, hchy⟩ | hno
    · rw [foldSet_get_mem l (fun ch => ch.after) c' ch hlnd hch hchx hchy
        (by omega) (by omega)]
      obtain ⟨_, _, _, haft⟩ := hprops ch hch
      rw [haft, hchx, hchy]
    · rw [foldSet_get_not_mem l (fun ch => ch.after) c' hno]
      exact hrest x y hx hy hno
  refine ⟨?_, ?_, ?_, ?_⟩
  · exact hbeq c0 rfl rfl (fun x y _ _ _ => rfl)
  · exact hbeq c1 hw hh (fun x y hx hy hno =>
      hun x y hx hy (hnotmem_key x y hno))
  · exact haeq c0 rfl rfl (fun x y hx hy hno =>
      (hun x y hx hy (hnotmem_key x y hno)).symm)
  · exact haeq c1 hw hh (fun x y _ _ _ => rfl)

/-- C1: Round-trip law of the operation builder.  For every canvas and every
sequence of OperationBuilder::apply calls starting from a fresh builder,
running the finalized Operation's apply_before on a copy of the pre-gesture
canvas reproduces the pre-gesture canvas, and running apply_after on a copy
of the pre-gesture canvas reproduces the post-gesture canvas. -/
theorem builder_roundtrip (c0 : Canvas) (calls : List (Int × Int × PaintCell)) :
    (applyCalls OperationBuilder.new c0 calls).1.into_operation.apply_before c0 = c0 ∧
    (applyCalls OperationBuilder.new c0 calls).1.into_operation.apply_after c0 =
      (applyCalls OperationBuilder.new c0 calls).2 := by
  have hI := builderInv_applyCalls c0 calls OperationBuilder.new c0 (builderInv_init c0)
  have h := into_operation_apply c0 (applyCalls OperationBuilder.new c0 calls).2
    (applyCalls OperationBuilder.new c0 calls).1 hI
  exact ⟨h.1, h.2.2.1⟩

/-- C3: Change-Tracker apply contract.  A write equal to the current grid
value leaves both the canvas and the builder's recorded changes unchanged;
and for every gesture each touched coordinate has a single recorded
CellChange whose before is the pre-gesture value at that coordinate (the
value at the first effective touch — earlier calls there were no-ops and
left the grid unchanged) and whose after is the current post-gesture value
(the last written value). -/
theorem change_tracker_apply_contract :
    (∀ (b : OperationBuilder) (c : Canvas) (x y : Int) (cell : PaintCell),
       c.in_bounds_i32 x y → c.get x.toNat y.toNat = cell →
       b.apply c x y cell = (b, c)) ∧
    (∀ (c0 : Canvas) (calls : List (Int × Int × PaintCell)),
       ((applyCalls OperationBuilder.new c0 calls).1.changes.map Prod.fst).Nodup ∧
       ∀ kc ∈ (applyCalls OperationBuilder.new c0 calls).1.changes,
         kc.2.before = c0.get kc.1.1 kc.1.2 ∧
         kc.2.after = (applyCalls OperationBuilder.new c0 calls).2.get kc.1.1 kc.1.2) := by
  constructor
  · exact fun b c x y cell h1 h2 => apply_noop b c x y cell h1 h2
  · intro c0 calls
    obtain ⟨hw, hh, hnd, hent, hun⟩ :=
      builderInv_applyCalls c0 calls OperationBuilder.new c0 (builderInv_init c0)
    exact ⟨hnd, fun kc hkc =>
      ⟨(hent kc hkc).2.2.2.2.1, (hent kc hkc).2.2.2.2.2⟩⟩

/-- Witness: the no-op write contract on a concrete 1x1 canvas together with
the recorded before/after of the coalesced entry of a concrete two-write
gesture at (0,0). -/
theorem change_tracker_apply_contract_witness :
    (OperationBuilder.new.apply (Canvas.new 1 1) 0 0 PaintCell.blank =
      (OperationBuilder.new, Canvas.new 1 1)) ∧
    (PaintCell.blank = (Canvas.new 1 1).get 0 0 ∧
     (⟨'Y', PaintColor.blue, none⟩ : PaintCell) =
       (applyCalls OperationBuilder.new (Canvas.new 1 1)
         [(0, 0, ⟨'X', PaintColor.red, none⟩),
          (0, 0, ⟨'Y', PaintColor.blue, none⟩)]).2.get 0 0) :=
  ⟨change_tracker_apply_contract.1 OperationBuilder.new (Canvas.new 1 1) 0 0
      PaintCell.blank (by decide) (by decide),
   (change_tracker_apply_contract.2 (Canvas.new 1 1)
      [(0, 0, ⟨'X', PaintColor.red, none⟩),
       (0, 0, ⟨'Y', PaintColor.blue, none⟩)]).2
     ((0, 0), ⟨0, 0, PaintCell.blank, ⟨'Y', PaintColor.blue, none⟩⟩) (by decide)⟩

/-- C10: degenerate coalesced entries are retained at finalization.  A fresh
builder painting an in-bounds cell whose value is A first with B (distinct
from A) and then with A again finalizes to an Operation containing the entry
with before = A and after = A; and into_operation never filters entries — its
changes are always a permutation of the builder's recorded changes. -/
theorem degenerate_entries_retained :
    (∀ (c : Canvas) (x y : Int) (A B : PaintCell),
       c.in_bounds_i32 x y → c.get x.toNat y.toNat = A → B ≠ A →
       CellChange.mk x.toNat y.toNat A A ∈
         ((OperationBuilder.new.apply c x y B).1.apply
            (OperationBuilder.new.apply c x y B).2 x y A).1.into_operation.changes) ∧
    (∀ b : OperationBuilder,
       b.into_operation.changes.Perm (b.changes.map Prod.snd)) := by
  constructor
  · intro c x y A B hin hget hBA
    have hxw : x.toNat < c.width := by
      obtain ⟨h1, h2, h3, h4⟩ := hin
      omega
    have hyh : y.toNat < c.height := by
      obtain ⟨h1, h2, h3, h4⟩ := hin
      omega
    have hb1 := apply_insert OperationBuilder.new c x y B hin
      (by rw [hget]; exact fun h => hBA h.symm) (by simp [OperationBuilder.new])
    simp only [OperationBuilder.new] at hb1
    simp only [OperationBuilder.new]
    rw [hb1]
    have hin2 : (c.set x.toNat y.toNat B).in_bounds_i32 x y :=
      (in_bounds_set c x.toNat y.toNat B x y).mpr hin
    have hget2 : (c.set x.toNat y.toNat B).get x.toNat y.toNat = B :=
      canvas_get_set_same c B hxw hyh
    have hb2 := apply_update
      (⟨[((x.toNat, y.toNat), ⟨x.toNat, y.toNat, c.get x.toNat y.toNat, B⟩)]⟩ :
        OperationBuilder)
      (c.set x.toNat y.toNat B) x y A hin2 (by rw [hget2]; exact fun h => hBA h)
      (by simp)
    rw [hb2]
    unfold OperationBuilder.into_operation
    rw [(sortChanges_perm _).mem_iff]
    simp [hget]
  · intro b
    exact sortChanges_perm _

/-- Witness: the degenerate blank-X-blank gesture at (0,0) on a 1x1 canvas
leaves a before = after = blank entry in the finalized operation. -/
theorem degenerate_entries_retained_witness :
    CellChange.mk 0 0 PaintCell.blank PaintCell.blank ∈
      ((OperationBuilder.new.apply (Canvas.new 1 1) 0 0 ⟨'X', PaintColor.red, none⟩).1.apply
         (OperationBuilder.new.apply (Canvas.new 1 1) 0 0 ⟨'X', PaintColor.red, none⟩).2
         0 0 PaintCell.blank).1.into_operation.changes :=
  degenerate_entries_retained.1 (Canvas.new 1 1) 0 0 PaintCell.blank
    ⟨'X', PaintColor.red, none⟩ (by decide) (by decide) (by decide)

/-! History: eviction, the capacity invariant, and the undo/redo inverse law. -/

theorem evictFront_eq_drop (cap : Nat) (l : List Operation) :
    evictFront cap l = l.drop (l.length - cap) := by
  induction l with
  | nil => simp [evictFront]
  | cons a t ih =>
    rw [evictFront]
    split
    · rename_i hlt
      rw [ih]
      simp only [List.length_cons]
      have : t.length + 1 - cap = (t.length - cap) + 1 := by omega
      rw [this, List.drop_succ_cons]
    · rename_i hge
      simp only [List.length_cons]
      have : t.length + 1 - cap = 0 := by omega
      rw [this, List.drop_zero]

theorem evictFront_length (cap : Nat) (l : List Operation) :
    (evictFront cap l).length = min l.length cap := by
  rw [evictFront_eq_drop cap l, List.length_drop]
  omega

theorem histStep_inv (hc : History × Canvas) (call : HistCall)
    (h1 : hc.1.undo_stack.length + hc.1.redo_stack.length ≤ hc.1.capacity) :
    (histStep hc call).1.undo_stack.length + (histStep hc call).1.redo_stack.length ≤
      (histStep hc call).1.capacity ∧
    (histStep hc call).1.capacity = hc.1.capacity := by
  cases call with
  | push op =>
    simp only [histStep, History.push]
    split
    · exact ⟨h1, rfl⟩
    · refine ⟨?_, rfl⟩
      simp only [List.length_nil, Nat.add_zero]
      rw [evictFront_length]
      omega
  | undo =>
    simp only [histStep, History.undo]
    rcases hgl : hc.1.undo_stack.getLast? with _ | op
    · exact ⟨h1, rfl⟩
    · have hne : hc.1.undo_stack ≠ [] := by
        intro h
        rw [h] at hgl
        simp at hgl
      constructor
      · simp only [List.length_dropLast, List.length_append, List.length_cons,
          List.length_nil]
        have : 0 < hc.1.undo_stack.length := List.length_pos.mpr hne
        omega
      · rfl
  | redo =>
    simp only [histStep, History.redo]
    rcases hgl : hc.1.redo_stack.getLast? with _ | op
    · exact ⟨h1, rfl⟩
    · have hne : hc.1.redo_stack ≠ [] := by
        intro h
        rw [h] at hgl
        simp at hgl
      constructor
      · simp only [List.length_dropLast, List.length_append, List.length_cons,
          List.length_nil]
        have : 0 < hc.1.redo_stack.length := List.length_pos.mpr hne
        omega
      · rfl
  | clear =>
    simp only [histStep, History.clear]
    refine ⟨by simp, ?_⟩
    trivial

theorem histSteps_inv (calls : List HistCall) :
    ∀ (hc : History × Canvas),
      hc.1.undo_stack.length + hc.1.redo_stack.length ≤ hc.1.capacity →
      (calls.foldl histStep hc).1.undo_stack.length +
        (calls.foldl histStep hc).1.redo_stack.length ≤
        (calls.foldl histStep hc).1.capacity := by
  induction calls with
  | nil => intro hc h; exact h
  | cons call t ih =>
    intro hc h
    rw [List.foldl_cons]
    exact ih _ (histStep_inv hc call h).1

/-- C4: History push contract and capacity invariant.  Pushing an empty
operation changes nothing; pushing a non-empty operation appends it to the
undo stack, empties the redo stack and evicts oldest entries while the undo
stack exceeds capacity; and after any sequence of push/undo/redo/clear calls
starting from a fresh history the undo stack never exceeds the capacity. -/
theorem history_push_capacity :
    (∀ (h : History) (op : Operation), op.is_empty = true → h.push op = h) ∧
    (∀ (h : History) (op : Operation), op.is_empty = false →
       h.push op = ⟨evictFront h.capacity (h.undo_stack ++ [op]), [], h.capacity⟩) ∧
    (∀ (cap : Nat) (c : Canvas) (calls : List HistCall),
       (calls.foldl histStep (History.new cap, c)).1.undo_stack.length ≤ cap) := by
  refine ⟨?_, ?_, ?_⟩
  · intro h op hemp
    unfold History.push
    rw [if_pos hemp]
  · intro h op hemp
    unfold History.push
    rw [if_neg (by rw [hemp]; exact Bool.false_ne_true)]
  · intro cap c calls
    have h0 : (History.new cap, c).1.undo_stack.length +
        (History.new cap, c).1.redo_stack.length ≤ (History.new cap, c).1.capacity := by
      simp [History.new]
    have := histSteps_inv calls (History.new cap, c) h0
    have hcap : ∀ (calls' : List HistCall) (hc : History × Canvas),
        (calls'.foldl histStep hc).1.capacity = hc.1.capacity := by
      intro calls'
      induction calls' with
      | nil => intro hc; rfl
      | cons call t ih =>
        intro hc
        rw [List.foldl_cons, ih]
        cases call with
        | push op =>
          simp only [histStep, History.push]
          split
          · rfl
          · rfl
        | undo =>
          simp only [histStep, History.undo]
          rcases hgl : hc.1.undo_stack.getLast? with _ | op
          · rfl
          · rfl
        | redo =>
          simp only [histStep, History.redo]
          rcases hgl : hc.1.redo_stack.getLast? with _ | op
          · rfl
          · rfl
        | clear => rfl
    have hc := hcap calls (History.new cap, c)
    have hc' : (calls.foldl histStep (History.new cap, c)).1.capacity = cap := hc
    omega

/-- Witness: the push contract applied to a concrete history of capacity 2,
once with an empty and once with a non-empty operation. -/
theorem history_push_capacity_witness :
    ((History.mk [] [] 2).push (Operation.mk []) = History.mk [] [] 2) ∧
    ((History.mk [] [] 2).push (Operation.mk [⟨0, 0, PaintCell.blank, PaintCell.blank⟩]) =
      ⟨evictFront 2 ([] ++ [Operation.mk [⟨0, 0, PaintCell.blank, PaintCell.blank⟩]]),
       [], 2⟩) :=
  ⟨history_push_capacity.1 (History.mk [] [] 2) (Operation.mk []) (by decide),
   history_push_capacity.2.1 (History.mk [] [] 2)
     (Operation.mk [⟨0, 0, PaintCell.blank, PaintCell.blank⟩]) (by decide)⟩

theorem evictFront_concat (cap : Nat) (hcap : 1 ≤ cap) (u : List Operation)
    (op : Operation) :
    evictFront cap (u ++ [op]) = u.drop (u.length + 1 - cap) ++ [op] := by
  have hlen : (u ++ [op]).length = u.length + 1 := by simp
  rw [evictFront_eq_drop cap _, hlen,
    List.drop_append_of_le_length (by omega)]

/-- C2 (amended): undo/redo inverse law for a non-empty operation produced by
a builder gesture on the canvas, pushed to a history whose capacity is at
least 1.  Undo restores the exact pre-gesture canvas and reports true; the
subsequent redo restores the exact post-gesture canvas and reports true. -/
theorem undo_redo_inverse (h : History) (c0 : Canvas)
    (calls : List (Int × Int × PaintCell)) (hcap : 1 ≤ h.capacity)
    (hne : (applyCalls OperationBuilder.new c0 calls).1.into_operation.is_empty = false) :
    ((h.push (applyCalls OperationBuilder.new c0 calls).1.into_operation).undo
        (applyCalls OperationBuilder.new c0 calls).2).2.1 = c0 ∧
    ((h.push (applyCalls OperationBuilder.new c0 calls).1.into_operation).undo
        (applyCalls OperationBuilder.new c0 calls).2).2.2 = true ∧
    (((h.push (applyCalls OperationBuilder.new c0 calls).1.into_operation).undo
        (applyCalls OperationBuilder.new c0 calls).2).1.redo c0).2.1 =
      (applyCalls OperationBuilder.new c0 calls).2 ∧
    (((h.push (applyCalls OperationBuilder.new c0 calls).1.into_operation).undo
        (applyCalls OperationBuilder.new c0 calls).2).1.redo c0).2.2 = true := by
  have hI := builderInv_applyCalls c0 calls OperationBuilder.new c0 (builderInv_init c0)
  have happ := into_operation_apply c0 (applyCalls OperationBuilder.new c0 calls).2
    (applyCalls OperationBuilder.new c0 calls).1 hI
  have hpush := history_push_capacity.2.1 h
    (applyCalls OperationBuilder.new c0 calls).1.into_operation hne
  rw [hpush]
  have hev := evictFront_concat h.capacity hcap h.undo_stack
    (applyCalls OperationBuilder.new c0 calls).1.into_operation
  simp only [History.undo, hev, List.getLast?_concat, List.dropLast_concat]
  refine ⟨happ.2.1, trivial, ?_, ?_⟩
  · simp only [History.redo, List.nil_append, List.getLast?_concat]
    exact happ.2.2.1
  · simp only [History.redo, List.nil_append, List.getLast?_concat]
    rfl

/-- Counterexample to C2 as stated: on a fresh history with capacity 0, the
non-empty operation produced by painting (0,0) on a blank 1x1 canvas is
evicted by its own push, so the following undo does not restore the
pre-gesture canvas (it returns the post-gesture canvas unchanged). -/
theorem undo_redo_inverse_counterexample :
    ¬ (((History.new 0).push
          (applyCalls OperationBuilder.new (Canvas.new 1 1)
            [(0, 0, (⟨'X', PaintColor.red, none⟩ : PaintCell))]).1.into_operation).undo
         (applyCalls OperationBuilder.new (Canvas.new 1 1)
           [(0, 0, (⟨'X', PaintColor.red, none⟩ : PaintCell))]).2).2.1 =
      Canvas.new 1 1 := by
  decide

/-- Witness: the amended inverse law run on capacity 8 with a one-cell paint
gesture on a blank 1x1 canvas. -/
theorem undo_redo_inverse_witness :
    (((History.new 8).push
        (applyCalls OperationBuilder.new (Canvas.new 1 1)
          [(0, 0, (⟨'X', PaintColor.red, none⟩ : PaintCell))]).1.into_operation).undo
       (applyCalls OperationBuilder.new (Canvas.new 1 1)
         [(0, 0, (⟨'X', PaintColor.red, none⟩ : PaintCell))]).2).2.1 = Canvas.new 1 1 ∧
    ((((History.new 8).push
        (applyCalls OperationBuilder.new (Canvas.new 1 1)
          [(0, 0, (⟨'X', PaintColor.red, none⟩ : PaintCell))]).1.into_operation).undo
       (applyCalls OperationBuilder.new (Canvas.new 1 1)
         [(0, 0, (⟨'X', PaintColor.red, none⟩ : PaintCell))]).2).1.redo
       (Canvas.new 1 1)).2.1 =
      (applyCalls OperationBuilder.new (Canvas.new 1 1)
        [(0, 0, (⟨'X', PaintColor.red, none⟩ : PaintCell))]).2 := by
  have h := undo_redo_inverse (History.new 8) (Canvas.new 1 1)
    [(0, 0, (⟨'X', PaintColor.red, none⟩ : PaintCell))] (by decide) (by decide)
  exact ⟨h.1, h.2.2.1⟩

/-! Ellipse rasterization: degenerate radii. -/

/-- C9: ellipse_points degenerate cases.  With radii rx, ry computed as half
the normalized bounding-box extents by integer division: both radii zero
gives exactly the center point; rx = 0 alone gives the vertical segment of
the bounding box at x = min_x (the center column); ry = 0 alone gives the
horizontal segment at y = min_y (the center row); and the zero-height box
(0,0)-(4,0) yields the five collinear points (0,0)..(4,0). -/
theorem ellipse_points_degenerate :
    (∀ ps pe : Point,
       ((max ps.x pe.x - min ps.x pe.x) / 2).natAbs = 0 →
       ((max ps.y pe.y - min ps.y pe.y) / 2).natAbs = 0 →
       ellipse_points ps pe = [⟨min ps.x pe.x, min ps.y pe.y⟩]) ∧
    (∀ ps pe : Point,
       ((max ps.x pe.x - min ps.x pe.x) / 2).natAbs = 0 →
       ((max ps.y pe.y - min ps.y pe.y) / 2).natAbs ≠ 0 →
       ellipse_points ps pe =
         (intRangeIncl (min ps.y pe.y) (max ps.y pe.y)).map
           (fun y => ⟨min ps.x pe.x, y⟩)) ∧
    (∀ ps pe : Point,
       ((max ps.x pe.x - min ps.x pe.x) / 2).natAbs ≠ 0 →
       ((max ps.y pe.y - min ps.y pe.y) / 2).natAbs = 0 →
       ellipse_points ps pe =
         (intRangeIncl (min ps.x pe.x) (max ps.x pe.x)).map
           (fun x => ⟨x, min ps.y pe.y⟩)) ∧
    ellipse_points ⟨0, 0⟩ ⟨4, 0⟩ = [⟨0, 0⟩, ⟨1, 0⟩, ⟨2, 0⟩, ⟨3, 0⟩, ⟨4, 0⟩] := by
  refine ⟨?_, ?_, ?_, ?_⟩
  · intro ps pe hrx hry
    simp [ellipse_points, hrx, hry, Nat.cast_eq_zero]
  · intro ps pe hrx hry
    have hry' : (ps.y ⊔ pe.y - ps.y ⊓ pe.y) / 2 ≠ 0 := Int.natAbs_ne_zero.mp hry
    simp [ellipse_points, hrx, hry', Nat.cast_eq_zero]
  · intro ps pe hrx hry
    have hrx' : (ps.x ⊔ pe.x - ps.x ⊓ pe.x) / 2 ≠ 0 := Int.natAbs_ne_zero.mp hrx
    simp [ellipse_points, hrx', hry, Nat.cast_eq_zero]
  · decide

/-- Witness: the three degenerate branches evaluated at concrete corner
pairs — a point box, a zero-width box of height 6, and a zero-height box of
width 4. -/
theorem ellipse_points_degenerate_witness :
    ellipse_points ⟨2, 3⟩ ⟨2, 3⟩ = [⟨2, 3⟩] ∧
    ellipse_points ⟨0, 0⟩ ⟨0, 6⟩ =
      (intRangeIncl 0 6).map (fun y => ⟨0, y⟩) ∧
    ellipse_points ⟨0, 0⟩ ⟨4, 0⟩ =
      (intRangeIncl 0 4).map (fun x => ⟨x, 0⟩) :=
  ⟨ellipse_points_degenerate.1 ⟨2, 3⟩ ⟨2, 3⟩ (by decide) (by decide),
   ellipse_points_degenerate.2.1 ⟨0, 0⟩ ⟨0, 6⟩ (by decide) (by decide),
   ellipse_points_degenerate.2.2.1 ⟨0, 0⟩ ⟨4, 0⟩ (by decide) (by decide)⟩

/-! Bresenham: the error-term invariant and the endpoint/ordering contract. -/

theorem bresenhamGo_spec :
    ∀ (fuel : Nat) (x1 y1 sx sy dx dy x0 y0 err : Int) (rx ry : Nat),
      (sx = 1 ∨ sx = -1) → (sy = 1 ∨ sy = -1) → 0 ≤ dx → dy ≤ 0 →
      x1 - x0 = sx * rx → y1 - y0 = sy * ry →
      err = dx + dy - dy * rx - dx * ry →
      rx + ry < fuel →
      ∃ tl, bresenhamGo x1 y1 sx sy dx dy fuel x0 y0 err = ⟨x0, y0⟩ :: tl ∧
        (⟨x0, y0⟩ :: tl : List Point).getLast? = some ⟨x1, y1⟩ ∧
        List.Chain' (goStep sx sy) (⟨x0, y0⟩ :: tl) := by
  intro fuel
  induction fuel with
  | zero =>
    intro x1 y1 sx sy dx dy x0 y0 err rx ry _ _ _ _ _ _ _ hfuel
    omega
  | succ n ih =>
    intro x1 y1 sx sy dx dy x0 y0 err rx ry hsx hsy hdx hdy hxe hye herr hfuel
    rw [bresenhamGo]
    by_cases hdone : x0 = x1 ∧ y0 = y1
    · rw [if_pos hdone]
      exact ⟨[], rfl, by rw [hdone.1, hdone.2]; rfl, List.chain'_singleton _⟩
    · rw [if_neg hdone]
      have hrx0 : x0 = x1 ↔ rx = 0 := by
        rcases hsx with h | h <;> subst h <;> omega
      have hry0 : y0 = y1 ↔ ry = 0 := by
        rcases hsy with h | h <;> subst h <;> omega
      by_cases hmx : dy ≤ 2 * err ∧ ¬ x0 = x1 <;>
        by_cases hmy : 2 * err ≤ dx ∧ ¬ y0 = y1
      · -- both coordinates advance
        have hrx1 : 1 ≤ rx := by
          rcases Nat.eq_zero_or_pos rx with h0 | h0
          · exact absurd (hrx0.mpr h0) hmx.2
          · exact h0
        have hry1 : 1 ≤ ry := by
          rcases Nat.eq_zero_or_pos ry with h0 | h0
          · exact absurd (hry0.mpr h0) hmy.2
          · exact h0
        have hcx : (↑(rx - 1) : Int) = ↑rx - 1 := by omega
        have hcy : (↑(ry - 1) : Int) = ↑ry - 1 := by omega
        obtain ⟨tl, heq, hlast, hchain⟩ := ih x1 y1 sx sy dx dy (x0 + sx) (y0 + sy)
          ((err + dy) + dx) (rx - 1) (ry - 1) hsx hsy hdx hdy
          (by rw [hcx]; linear_combination hxe)
          (by rw [hcy]; linear_combination hye)
          (by rw [hcx, hcy]; linear_combination herr)
          (by omega)
        rw [if_pos hmx, if_pos hmy, if_pos hmx, if_pos hmy, heq]
        refine ⟨⟨x0 + sx, y0 + sy⟩ :: tl, rfl, ?_, ?_⟩
        · rw [List.getLast?_cons_cons]
          exact hlast
        · rw [List.chain'_cons]
          refine ⟨⟨Or.inr rfl, Or.inr rfl, ?_⟩, hchain⟩
          intro hcontra
          rw [Point.mk.injEq] at hcontra
          rcases hsx with h | h <;> omega
      · -- only x advances
        have hrx1 : 1 ≤ rx := by
          rcases Nat.eq_zero_or_pos rx with h0 | h0
          · exact absurd (hrx0.mpr h0) hmx.2
          · exact h0
        have hcx : (↑(rx - 1) : Int) = ↑rx - 1 := by omega
        obtain ⟨tl, heq, hlast, hchain⟩ := ih x1 y1 sx sy dx dy (x0 + sx) y0
          ((err + dy) + 0) (rx - 1) ry hsx hsy hdx hdy
          (by rw [hcx]; linear_combination hxe) hye
          (by rw [hcx]; linear_combination herr)
          (by omega)
        rw [if_pos hmx, if_neg hmy, if_pos hmx, if_neg hmy, heq]
        refine ⟨⟨x0 + sx, y0⟩ :: tl, rfl, ?_, ?_⟩
        · rw [List.getLast?_cons_cons]
          exact hlast
        · rw [List.chain'_cons]
          refine ⟨⟨Or.inr rfl, Or.inl rfl, ?_⟩, hchain⟩
          intro hcontra
          rw [Point.mk.injEq] at hcontra
          rcases hsx with h | h <;> omega
      · -- only y advances
        have hry1 : 1 ≤ ry := by
          rcases Nat.eq_zero_or_pos ry with h0 | h0
          · exact absurd (hry0.mpr h0) hmy.2
          · exact h0
        have hcy : (↑(ry - 1) : Int) = ↑ry - 1 := by omega
        obtain ⟨tl, heq, hlast, hchain⟩ := ih x1 y1 sx sy dx dy x0 (y0 + sy)
          (err + dx) rx (ry - 1) hsx hsy hdx hdy hxe
          (by rw [hcy]; linear_combination hye)
          (by rw [hcy]; linear_combination herr)
          (by omega)
        rw [if_neg hmx, if_pos hmy, if_neg hmx, if_pos hmy, heq]
        refine ⟨⟨x0, y0 + sy⟩ :: tl, rfl, ?_, ?_⟩
        · rw [List.getLast?_cons_cons]
          exact hlast
        · rw [List.chain'_cons]
          refine ⟨⟨Or.inl rfl, Or.inr rfl, ?_⟩, hchain⟩
          intro hcontra
          rw [Point.mk.injEq] at hcontra
          rcases hsy with h | h <;> omega
      · -- stall is impossible
        exfalso
        push_neg at hmx hmy
        by_cases hc1 : dy ≤ 2 * err
        · have hx1 : x0 = x1 := hmx hc1
          have hrxz : rx = 0 := hrx0.mp hx1
          have hyne : ¬ y0 = y1 := fun h => hdone ⟨hx1, h⟩
          have hry1 : 1 ≤ ry := by
            rcases Nat.eq_zero_or_pos ry with h0 | h0
            · exact absurd (hry0.mpr h0) hyne
            · exact h0
          have hc2 : ¬ 2 * err ≤ dx := fun h => hyne (hmy h)
          have hprod : 0 ≤ dx * ((ry : Int) - 1) := mul_nonneg hdx (by omega)
          rw [hrxz] at herr
          push_cast at herr
          nlinarith [herr, hprod, hdy, hdx]
        · have hc1' : 2 * err < dy := by omega
          have hc2 : 2 * err ≤ dx := by omega
          have hy1 : y0 = y1 := hmy hc2
          have hryz : ry = 0 := hry0.mp hy1
          have hxne : ¬ x0 = x1 := fun h => hdone ⟨h, hy1⟩
          have hrx1 : 1 ≤ rx := by
            rcases Nat.eq_zero_or_pos rx with h0 | h0
            · exact absurd (hrx0.mpr h0) hxne
            · exact h0
          have hprod : 0 ≤ (-dy) * ((rx : Int) - 1) := mul_nonneg (by omega) (by omega)
          rw [hryz] at herr
          push_cast at herr
          nlinarith [herr, hprod, hdy, hdx]

/-- C8: bresenham_line contract.  For every pair of points the returned
sequence begins with start and ends with end, has no duplicate points, and is
ordered from start to end (each consecutive point keeps or advances each
coordinate one unit in the fixed direction of the endpoint); in particular a
degenerate line returns exactly the single start point and the line
(0,0)-(3,0) returns the four collinear points in order. -/
theorem bresenham_line_contract :
    (∀ ps pe : Point, ∃ tl,
       bresenham_line ps pe = ps :: tl ∧
       (bresenham_line ps pe).getLast? = some pe ∧
       (bresenham_line ps pe).Nodup ∧
       List.Chain'
         (goStep (if ps.x < pe.x then 1 else -1) (if ps.y < pe.y then 1 else -1))
         (bresenham_line ps pe)) ∧
    (∀ p : Point, bresenham_line p p = [p]) ∧
    bresenham_line ⟨0, 0⟩ ⟨3, 0⟩ = [⟨0, 0⟩, ⟨1, 0⟩, ⟨2, 0⟩, ⟨3, 0⟩] := by
  refine ⟨?_, ?_, ?_⟩
  · intro ps pe
    have hsx : (if ps.x < pe.x then (1 : Int) else -1) = 1 ∨
        (if ps.x < pe.x then (1 : Int) else -1) = -1 := by
      split
      · exact Or.inl rfl
      · exact Or.inr rfl
    have hsy : (if ps.y < pe.y then (1 : Int) else -1) = 1 ∨
        (if ps.y < pe.y then (1 : Int) else -1) = -1 := by
      split
      · exact Or.inl rfl
      · exact Or.inr rfl
    have hxe : pe.x - ps.x =
        (if ps.x < pe.x then (1 : Int) else -1) * ((pe.x - ps.x).natAbs : Int) := by
      split <;> rename_i h <;> omega
    have hye : pe.y - ps.y =
        (if ps.y < pe.y then (1 : Int) else -1) * ((pe.y - ps.y).natAbs : Int) := by
      split <;> rename_i h <;> omega
    obtain ⟨tl, heq, hlast, hchain⟩ := bresenhamGo_spec
      ((pe.x - ps.x).natAbs + (pe.y - ps.y).natAbs + 1) pe.x pe.y
      (if ps.x < pe.x then 1 else -1) (if ps.y < pe.y then 1 else -1)
      ((pe.x - ps.x).natAbs : Int) (-((pe.y - ps.y).natAbs : Int))
      ps.x ps.y (((pe.x - ps.x).natAbs : Int) + -((pe.y - ps.y).natAbs : Int))
      (pe.x - ps.x).natAbs (pe.y - ps.y).natAbs
      hsx hsy (by positivity) (by omega) hxe hye (by push_cast; ring) (by omega)
    have hl : bresenham_line ps pe = ps :: tl := by
      simp only [bresenham_line]
      exact heq
    refine ⟨tl, hl, by rw [hl]; exact hlast, ?_, by rw [hl]; exact hchain⟩
    rw [hl]
    have hchain' : List.Chain'
        (fun p q : Point =>
          (if ps.x < pe.x then (1 : Int) else -1) * p.x +
            (if ps.y < pe.y then (1 : Int) else -1) * p.y <
          (if ps.x < pe.x then (1 : Int) else -1) * q.x +
            (if ps.y < pe.y then (1 : Int) else -1) * q.y)
        (ps :: tl) := by
      apply List.Chain'.imp ?_ hchain
      intro p q hpq
      obtain ⟨hqx, hqy, hne⟩ := hpq
      have hne' : ¬ (q.x = p.x ∧ q.y = p.y) := by
        intro hand
        apply hne
        obtain ⟨px, py⟩ := p
        obtain ⟨qx, qy⟩ := q
        simp only at hand
        rw [Point.mk.injEq]
        exact hand
      rcases hsx with h | h <;> rcases hsy with h' | h' <;> rw [h, h'] <;>
        rw [h] at hqx <;> rw [h'] at hqy <;>
        rcases hqx with e | e <;> rcases hqy with e' | e' <;> omega
    letI : IsTrans Point
        (fun p q : Point =>
          (if ps.x < pe.x then (1 : Int) else -1) * p.x +
            (if ps.y < pe.y then (1 : Int) else -1) * p.y <
          (if ps.x < pe.x then (1 : Int) else -1) * q.x +
            (if ps.y < pe.y then (1 : Int) else -1) * q.y) :=
      ⟨fun _ _ _ h1 h2 => lt_trans h1 h2⟩
    have hpw := List.chain'_iff_pairwise.mp hchain'
    exact hpw.imp (fun {a b} hab he => by subst he; exact absurd hab (lt_irrefl _))
  · intro p
    simp [bresenham_line, bresenhamGo]
  · decide

/-! Flood fill: visited-mask lemmas and BFS correctness. -/

theorem countFalse_set_le (l : List Bool) (i : Nat) :
    countFalse (l.set i true) ≤ countFalse l := by
  induction l generalizing i with
  | nil => simp
  | cons a t ih =>
    cases i with
    | zero => cases a <;> simp [countFalse, List.countP_cons]
    | succ m =>
      simp only [List.set, countFalse, List.countP_cons]
      have := ih m
      simp only [countFalse] at this
      omega

theorem countFalse_set_lt (l : List Bool) (i : Nat) (h1 : i < l.length)
    (h2 : l.getD i false = false) : countFalse (l.set i true) < countFalse l := by
  induction l generalizing i with
  | nil => simp at h1
  | cons a t ih =>
    cases i with
    | zero =>
      simp [List.getD_cons_zero] at h2
      subst h2
      simp [countFalse, List.countP_cons]
    | succ m =>
      simp only [List.set, countFalse, List.countP_cons]
      simp only [List.length_cons, Nat.add_lt_add_iff_right] at h1
      simp only [List.getD_cons_succ] at h2
      have := ih m h1 h2
      simp only [countFalse] at this
      omega

theorem getD_set_true_self (l : List Bool) (i : Nat) (h : i < l.length) :
    (l.set i true).getD i false = true := by
  rw [List.getD_eq_getElem _ _ (by rwa [List.length_set])]
  exact List.getElem_set_self _

theorem getD_set_true_ne (l : List Bool) (i j : Nat) (hij : i ≠ j) :
    (l.set i true).getD j false = l.getD j false := by
  by_cases hj : j < l.length
  · rw [List.getD_eq_getElem _ _ (by rwa [List.length_set]),
      List.getD_eq_getElem _ _ hj]
    exact List.getElem_set_ne hij _
  · rw [List.getD_eq_getElem?_getD, List.getD_eq_getElem?_getD,
      List.getElem?_eq_none (show l.length ≤ j by omega),
      List.getElem?_eq_none (show (l.set i true).length ≤ j by
        rw [List.length_set]; omega)]

theorem getD_set_true_mono (l : List Bool) (i j : Nat)
    (h : l.getD j false = true) : (l.set i true).getD j false = true := by
  by_cases hij : i = j
  · subst hij
    have hlen : i < l.length := by
      by_contra hge
      rw [List.getD_eq_getElem?_getD,
        List.getElem?_eq_none (show l.length ≤ i by omega)] at h
      simp at h
    exact getD_set_true_self l i hlen
  · rw [getD_set_true_ne l i j hij]
    exact h

theorem getD_replicate_false (n i : Nat) :
    (List.replicate n false).getD i false = false := by
  by_cases h : i < n
  · rw [List.getD_eq_getElem _ _ (by rwa [List.length_replicate])]
    exact List.getElem_replicate _ _
  · rw [List.getD_eq_getElem?_getD,
      List.getElem?_eq_none (by rw [List.length_replicate]; omega)]
    rfl

theorem flood_point_inj (c : Canvas) (p q : Point) (hp : c.in_bounds_i32 p.x p.y)
    (hq : c.in_bounds_i32 q.x q.y)
    (h : p.y.toNat * c.width + p.x.toNat = q.y.toNat * c.width + q.x.toNat) : p = q := by
  obtain ⟨hp1, hp2, hp3, hp4⟩ := hp
  obtain ⟨hq1, hq2, hq3, hq4⟩ := hq
  have hx : p.x.toNat < c.width := by omega
  have hx' : q.x.toNat < c.width := by omega
  obtain ⟨h1, h2⟩ := canvas_index_inj hx hx' h
  obtain ⟨px, py⟩ := p
  obtain ⟨qx, qy⟩ := q
  rw [Point.mk.injEq]
  simp only at h1 h2 hp1 hp2 hq1 hq2
  omega

theorem floodReach_props (c : Canvas) (t : PaintCell) (s p : Point)
    (hs1 : c.in_bounds_i32 s.x s.y) (hs2 : c.get s.x.toNat s.y.toNat = t)
    (hr : FloodReach c t s p) :
    c.in_bounds_i32 p.x p.y ∧ c.get p.x.toNat p.y.toNat = t := by
  induction hr with
  | refl => exact ⟨hs1, hs2⟩
  | tail _ hstep _ => exact ⟨hstep.2.1, hstep.2.2⟩

theorem floodInv_final (c : Canvas) (t : PaintCell) (s : Point) (visited : List Bool)
    (out : List Point) (hI : FloodInv c t s [] visited out) :
    out.Nodup ∧ ∀ p, p ∈ out ↔ FloodReach c t s p := by
  obtain ⟨hs1, hs2, hnd, hout, hcomp, hqinv, hfront, hstart⟩ := hI
  have hstart' : s ∈ out := by
    rcases hstart with h | h
    · exact h
    · cases h
  refine ⟨hnd, fun p => ⟨fun hp => (hout p hp).2.2.2, fun hr => ?_⟩⟩
  induction hr with
  | refl => exact hstart'
  | tail hab hbc ih =>
    obtain ⟨hmem, hinb, hval⟩ := hbc
    rcases hfront _ ih _ hmem with hq' | hnb | hvis
    · cases hq'
    · exact absurd hinb hnb
    · exact hcomp _ hinb hval hvis

theorem floodLoop_nil (c : Canvas) (t : PaintCell) (visited : List Bool)
    (hv : visited.length = c.width * c.height) (out : List Point) :
    floodLoop c t [] visited hv out = out := by
  rw [floodLoop]

theorem floodLoop_cons_oob (c : Canvas) (t : PaintCell) (p : Point)
    (rest : List Point) (visited : List Bool)
    (hv : visited.length = c.width * c.height) (out : List Point)
    (hin : ¬ c.in_bounds_i32 p.x p.y) :
    floodLoop c t (p :: rest) visited hv out = floodLoop c t rest visited hv out := by
  rw [floodLoop, dif_pos hin]

theorem floodLoop_cons_vis (c : Canvas) (t : PaintCell) (p : Point)
    (rest : List Point) (visited : List Bool)
    (hv : visited.length = c.width * c.height) (out : List Point)
    (hin : c.in_bounds_i32 p.x p.y)
    (hvis : visited.getD (p.y.toNat * c.width + p.x.toNat) false = true) :
    floodLoop c t (p :: rest) visited hv out = floodLoop c t rest visited hv out := by
  rw [floodLoop, dif_neg (not_not.mpr hin)]
  exact if_pos hvis

theorem floodLoop_cons_skip (c : Canvas) (t : PaintCell) (p : Point)
    (rest : List Point) (visited : List Bool)
    (hv : visited.length = c.width * c.height) (out : List Point)
    (hin : c.in_bounds_i32 p.x p.y)
    (hvis : ¬ visited.getD (p.y.toNat * c.width + p.x.toNat) false = true)
    (hnt : ¬ c.get p.x.toNat p.y.toNat = t) :
    floodLoop c t (p :: rest) visited hv out =
      floodLoop c t rest (visited.set (p.y.toNat * c.width + p.x.toNat) true)
        (by rw [List.length_set]; exact hv) out := by
  rw [floodLoop, dif_neg (not_not.mpr hin)]
  rw [if_neg hvis]
  exact if_pos hnt

theorem floodLoop_cons_accept (c : Canvas) (t : PaintCell) (p : Point)
    (rest : List Point) (visited : List Bool)
    (hv : visited.length = c.width * c.height) (out : List Point)
    (hin : c.in_bounds_i32 p.x p.y)
    (hvis : ¬ visited.getD (p.y.toNat * c.width + p.x.toNat) false = true)
    (ht : c.get p.x.toNat p.y.toNat = t) :
    floodLoop c t (p :: rest) visited hv out =
      floodLoop c t (rest ++ neighborList p)
        (visited.set (p.y.toNat * c.width + p.x.toNat) true)
        (by rw [List.length_set]; exact hv) (out ++ [p]) := by
  rw [floodLoop, dif_neg (not_not.mpr hin)]
  rw [if_neg hvis]
  exact if_neg (not_not.mpr ht)

theorem floodLoop_correct (c : Canvas) (t : PaintCell) (s : Point) :
    ∀ (n : Nat) (queue : List Point) (visited : List Bool)
      (hv : visited.length = c.width * c.height) (out : List Point),
      5 * countFalse visited + queue.length ≤ n →
      FloodInv c t s queue visited out →
      (floodLoop c t queue visited hv out).Nodup ∧
      ∀ p, p ∈ floodLoop c t queue visited hv out ↔ FloodReach c t s p := by
  intro n
  induction n with
  | zero =>
    intro queue visited hv out hm hI
    cases queue with
    | nil =>
      rw [floodLoop_nil]
      exact floodInv_final c t s visited out hI
    | cons p rest =>
      simp only [List.length_cons] at hm
      omega
  | succ n ih =>
    intro queue visited hv out hm hI
    cases queue with
    | nil =>
      rw [floodLoop_nil]
      exact floodInv_final c t s visited out hI
    | cons p rest =>
      obtain ⟨hs1, hs2, hnd, hout, hcomp, hqinv, hfront, hstart⟩ := hI
      simp only [List.length_cons] at hm
      by_cases hin : c.in_bounds_i32 p.x p.y
      · by_cases hvis : visited.getD (p.y.toNat * c.width + p.x.toNat) false = true
        · rw [floodLoop_cons_vis c t p rest visited hv out hin hvis]
          apply ih rest visited hv out (by omega)
          refine ⟨hs1, hs2, hnd, hout, hcomp, ?_, ?_, ?_⟩
          · intro q hq
            exact hqinv q (List.mem_cons_of_mem _ hq)
          · intro p' hp' q hq
            rcases hfront p' hp' q hq with hqq | h | h
            · rcases List.mem_cons.mp hqq with he | hr
              · subst he
                exact Or.inr (Or.inr hvis)
              · exact Or.inl hr
            · exact Or.inr (Or.inl h)
            · exact Or.inr (Or.inr h)
          · rcases hstart with h | h
            · exact Or.inl h
            · rcases List.mem_cons.mp h with he | hr
              · subst he
                exact Or.inl (hcomp s hs1 hs2 hvis)
              · exact Or.inr hr
        · have hvfalse : visited.getD (p.y.toNat * c.width + p.x.toNat) false = false := by
            simpa using hvis
          have hxlt : p.x.toNat < c.width := by
            obtain ⟨h1, h2, h3, h4⟩ := hin
            omega
          have hylt : p.y.toNat < c.height := by
            obtain ⟨h1, h2, h3, h4⟩ := hin
            omega
          have hidxlt : p.y.toNat * c.width + p.x.toNat < visited.length := by
            rw [hv]
            exact rowmajor_lt hxlt hylt
          have hmono : ∀ q : Point,
              visited.getD (q.y.toNat * c.width + q.x.toNat) false = true →
              (visited.set (p.y.toNat * c.width + p.x.toNat) true).getD
                (q.y.toNat * c.width + q.x.toNat) false = true :=
            fun q hq => getD_set_true_mono _ _ _ hq
          have hnewvis : ∀ q : Point, c.in_bounds_i32 q.x q.y →
              (visited.set (p.y.toNat * c.width + p.x.toNat) true).getD
                (q.y.toNat * c.width + q.x.toNat) false = true →
              q = p ∨ visited.getD (q.y.toNat * c.width + q.x.toNat) false = true := by
            intro q hqb hq
            by_cases hij : p.y.toNat * c.width + p.x.toNat =
                q.y.toNat * c.width + q.x.toNat
            · exact Or.inl (flood_point_inj c q p hqb hin hij.symm)
            · right
              rwa [getD_set_true_ne _ _ _ hij] at hq
          by_cases hnt : c.get p.x.toNat p.y.toNat = t
          · rw [floodLoop_cons_accept c t p rest visited hv out hin hvis hnt]
            have hpnotout : p ∉ out := by
              intro hp
              obtain ⟨_, _, h3, _⟩ := hout p hp
              rw [hvfalse] at h3
              cases h3
            have hreachp : FloodReach c t s p := by
              rcases hqinv p (List.mem_cons_self _ _) with he | ⟨p'', hp'', hmem⟩
              · subst he
                exact Relation.ReflTransGen.refl
              · exact Relation.ReflTransGen.tail (hout p'' hp'').2.2.2 ⟨hmem, hin, hnt⟩
            apply ih (rest ++ neighborList p)
              (visited.set (p.y.toNat * c.width + p.x.toNat) true) _ (out ++ [p])
              (by
                have := countFalse_set_lt visited (p.y.toNat * c.width + p.x.toNat)
                  hidxlt hvfalse
                simp only [List.length_append, neighborList, List.length_cons,
                  List.length_nil]
                omega)
            refine ⟨hs1, hs2, ?_, ?_, ?_, ?_, ?_, ?_⟩
            · rw [List.nodup_append]
              refine ⟨hnd, List.nodup_singleton _, ?_⟩
              intro a ha hap
              rw [List.mem_singleton] at hap
              subst hap
              exact hpnotout ha
            · intro q hq
              rcases List.mem_append.mp hq with hqo | hqp
              · obtain ⟨h1, h2, h3, h4⟩ := hout q hqo
                exact ⟨h1, h2, hmono q h3, h4⟩
              · rw [List.mem_singleton] at hqp
                subst hqp
                exact ⟨hin, hnt, getD_set_true_self _ _ hidxlt, hreachp⟩
            · intro q hqb hqt hq
              rcases hnewvis q hqb hq with he | hold
              · subst he
                exact List.mem_append_right _ (List.mem_singleton.mpr rfl)
              · exact List.mem_append_left _ (hcomp q hqb hqt hold)
            · intro q hq
              rcases List.mem_append.mp hq with hqr | hqn
              · rcases hqinv q (List.mem_cons_of_mem _ hqr) with he | ⟨p'', hp'', hmem⟩
                · exact Or.inl he
                · exact Or.inr ⟨p'', List.mem_append_left _ hp'', hmem⟩
              · exact Or.inr ⟨p, List.mem_append_right _ (List.mem_singleton.mpr rfl), hqn⟩
            · intro p' hp' q hq
              rcases List.mem_append.mp hp' with hpo | hpp
              · rcases hfront p' hpo q hq with hqq | h | h
                · rcases List.mem_cons.mp hqq with he | hr
                  · subst he
                    exact Or.inr (Or.inr (getD_set_true_self _ _ hidxlt))
                  · exact Or.inl (List.mem_append_left _ hr)
                · exact Or.inr (Or.inl h)
                · exact Or.inr (Or.inr (hmono q h))
              · rw [List.mem_singleton] at hpp
                subst hpp
                exact Or.inl (List.mem_append_right _ hq)
            · rcases hstart with h | h
              · exact Or.inl (List.mem_append_left _ h)
              · rcases List.mem_cons.mp h with he | hr
                · subst he
                  exact Or.inl (List.mem_append_right _ (List.mem_singleton.mpr rfl))
                · exact Or.inr (List.mem_append_left _ hr)
          · rw [floodLoop_cons_skip c t p rest visited hv out hin hvis hnt]
            apply ih rest (visited.set (p.y.toNat * c.width + p.x.toNat) true) _ out
              (by
                have := countFalse_set_le visited (p.y.toNat * c.width + p.x.toNat)
                omega)
            refine ⟨hs1, hs2, hnd, ?_, ?_, ?_, ?_, ?_⟩
            · intro q hq
              obtain ⟨h1, h2, h3, h4⟩ := hout q hq
              exact ⟨h1, h2, hmono q h3, h4⟩
            · intro q hqb hqt hq
              rcases hnewvis q hqb hq with he | hold
              · subst he
                exact absurd hqt hnt
              · exact hcomp q hqb hqt hold
            · intro q hq
              exact hqinv q (List.mem_cons_of_mem _ hq)
            · intro p' hp' q hq
              rcases hfront p' hp' q hq with hqq | h | h
              · rcases List.mem_cons.mp hqq with he | hr
                · subst he
                  exact Or.inr (Or.inr (getD_set_true_self _ _ hidxlt))
                · exact Or.inl hr
              · exact Or.inr (Or.inl h)
              · exact Or.inr (Or.inr (hmono q h))
            · rcases hstart with h | h
              · exact Or.inl h
              · rcases List.mem_cons.mp h with he | hr
                · subst he
                  exact absurd hs2 hnt
                · exact Or.inr hr
      · rw [floodLoop_cons_oob c t p rest visited hv out hin]
        apply ih rest visited hv out (by omega)
        refine ⟨hs1, hs2, hnd, hout, hcomp, ?_, ?_, ?_⟩
        · intro q hq
          exact hqinv q (List.mem_cons_of_mem _ hq)
        · intro p' hp' q hq
          rcases hfront p' hp' q hq with hqq | h | h
          · rcases List.mem_cons.mp hqq with he | hr
            · subst he
              exact Or.inr (Or.inl hin)
            · exact Or.inl hr
          · exact Or.inr (Or.inl h)
          · exact Or.inr (Or.inr h)
        · rcases hstart with h | h
          · exact Or.inl h
          · rcases List.mem_cons.mp h with he | hr
            · subst he
              exact absurd hs1 hin
            · exact Or.inr hr

/-- C7: flood_fill_points correctness.  If target equals replacement or the
seed is out of bounds the result is empty; the result never contains a
coordinate twice; every returned coordinate is in bounds and holds target;
if the seed cell does not hold target the result is empty; and otherwise the
result is exactly the 4-connected component of target-valued cells
containing the seed.  The function only reads the canvas — it returns the
coordinates to mutate without touching the grid. -/
theorem flood_fill_points_contract :
    (∀ (c : Canvas) (s : Point) (t r : PaintCell),
       t = r ∨ ¬ c.in_bounds_i32 s.x s.y → flood_fill_points c s t r = []) ∧
    (∀ (c : Canvas) (s : Point) (t r : PaintCell), (flood_fill_points c s t r).Nodup) ∧
    (∀ (c : Canvas) (s : Point) (t r : PaintCell), ∀ p ∈ flood_fill_points c s t r,
       c.in_bounds_i32 p.x p.y ∧ c.get p.x.toNat p.y.toNat = t) ∧
    (∀ (c : Canvas) (s : Point) (t r : PaintCell),
       t ≠ r → c.in_bounds_i32 s.x s.y → c.get s.x.toNat s.y.toNat ≠ t →
       flood_fill_points c s t r = []) ∧
    (∀ (c : Canvas) (s : Point) (t r : PaintCell),
       t ≠ r → c.in_bounds_i32 s.x s.y → c.get s.x.toNat s.y.toNat = t →
       ∀ p, p ∈ flood_fill_points c s t r ↔ FloodReach c t s p) := by
  have hempty : ∀ (c : Canvas) (s : Point) (t r : PaintCell),
      t = r ∨ ¬ c.in_bounds_i32 s.x s.y → flood_fill_points c s t r = [] := by
    intro c s t r h
    unfold flood_fill_points
    exact if_pos h
  have hnotarget : ∀ (c : Canvas) (s : Point) (t r : PaintCell),
      t ≠ r → c.in_bounds_i32 s.x s.y → c.get s.x.toNat s.y.toNat ≠ t →
      flood_fill_points c s t r = [] := by
    intro c s t r htr hinb hne
    unfold flood_fill_points
    rw [if_neg (by push_neg; exact ⟨htr, hinb⟩)]
    rw [floodLoop_cons_skip c t s [] _ _ [] hinb
      (by rw [getD_replicate_false]; exact Bool.false_ne_true) hne]
    rw [floodLoop_nil]
  have hkey : ∀ (c : Canvas) (s : Point) (t r : PaintCell),
      t ≠ r → c.in_bounds_i32 s.x s.y → c.get s.x.toNat s.y.toNat = t →
      (flood_fill_points c s t r).Nodup ∧
      ∀ p, p ∈ flood_fill_points c s t r ↔ FloodReach c t s p := by
    intro c s t r htr hinb hget
    unfold flood_fill_points
    rw [if_neg (by push_neg; exact ⟨htr, hinb⟩)]
    apply floodLoop_correct c t s
      (5 * countFalse (List.replicate (c.width * c.height) false) + 1)
      [s] _ _ []
      (by simp)
    refine ⟨hinb, hget, List.nodup_nil, ?_, ?_, ?_, ?_, ?_⟩
    · intro p hp
      cases hp
    · intro q _ _ hvis
      rw [getD_replicate_false] at hvis
      cases hvis
    · intro q hq
      rw [List.mem_singleton] at hq
      exact Or.inl hq
    · intro p' hp'
      cases hp'
    · exact Or.inr (List.mem_singleton.mpr rfl)
  refine ⟨hempty, ?_, ?_, hnotarget,
    fun c s t r htr hinb hget => (hkey c s t r htr hinb hget).2⟩
  · intro c s t r
    by_cases hguard : t = r ∨ ¬ c.in_bounds_i32 s.x s.y
    · rw [hempty c s t r hguard]
      exact List.nodup_nil
    · push_neg at hguard
      obtain ⟨htr, hinb⟩ := hguard
      by_cases hst : c.get s.x.toNat s.y.toNat = t
      · exact (hkey c s t r htr hinb hst).1
      · rw [hnotarget c s t r htr hinb hst]
        exact List.nodup_nil
  · intro c s t r p hp
    by_cases hguard : t = r ∨ ¬ c.in_bounds_i32 s.x s.y
    · rw [hempty c s t r hguard] at hp
      cases hp
    · push_neg at hguard
      obtain ⟨htr, hinb⟩ := hguard
      by_cases hst : c.get s.x.toNat s.y.toNat = t
      · have hr := ((hkey c s t r htr hinb hst).2 p).mp hp
        exact floodReach_props c t s p hinb hst hr
      · rw [hnotarget c s t r htr hinb hst] at hp
        cases hp

/-- Witness: the flood-fill contract evaluated on concrete canvases — the
target-equals-replacement guard, the component membership equivalence and
cell properties at the seed of a blank 1x1 canvas, and the empty result when
the seed does not hold the target. -/
theorem flood_fill_points_contract_witness :
    flood_fill_points (Canvas.new 1 1) ⟨0, 0⟩ PaintCell.blank PaintCell.blank = [] ∧
    ((⟨0, 0⟩ : Point) ∈ flood_fill_points (Canvas.new 1 1) ⟨0, 0⟩ PaintCell.blank
        ⟨'X', PaintColor.red, none⟩ ↔
      FloodReach (Canvas.new 1 1) PaintCell.blank ⟨0, 0⟩ ⟨0, 0⟩) ∧
    (Canvas.new 1 1).in_bounds_i32 0 0 ∧
    (Canvas.new 1 1).get 0 0 = PaintCell.blank ∧
    flood_fill_points (Canvas.new 2 1) ⟨0, 0⟩ ⟨'X', PaintColor.red, none⟩
      PaintCell.blank = [] := by
  have h2 := flood_fill_points_contract.2.2.2.2 (Canvas.new 1 1) ⟨0, 0⟩
    PaintCell.blank ⟨'X', PaintColor.red, none⟩ (by decide) (by decide) (by decide)
    ⟨0, 0⟩
  have hmem := h2.mpr Relation.ReflTransGen.refl
  have h3 := flood_fill_points_contract.2.2.1 (Canvas.new 1 1) ⟨0, 0⟩
    PaintCell.blank ⟨'X', PaintColor.red, none⟩ ⟨0, 0⟩ hmem
  exact ⟨flood_fill_points_contract.1 (Canvas.new 1 1) ⟨0, 0⟩ PaintCell.blank
      PaintCell.blank (Or.inl rfl), h2, h3.1, h3.2,
    flood_fill_points_contract.2.2.2.1 (Canvas.new 2 1) ⟨0, 0⟩
      ⟨'X', PaintColor.red, none⟩ PaintCell.blank (by decide) (by decide) (by decide)⟩
